import Mathlib

/-!
Verification of the `github-distributed-owners` resolution pipeline.

This file gives a shallow embedding, in Lean, of the core of the
`github-distributed-owners` tool: the ownership-set directive interpreter
(`src/owners_set.rs`), the declaration-file parser with includes and cycle
detection (`src/owners_file.rs`), the directory-tree builder
(`src/owners_tree.rs`), and the resolver plus serializer
(`src/codeowners.rs`).

Modelling conventions:
* Rust `String`/`&str` values are Lean `String`s, but every operation on
  them is implemented here over the underlying `List Char`
  (`String.data`), so that all definitions reduce inside the kernel and
  concrete runs can be settled by `decide`.  Each helper notes the Rust
  `str` method it models.  `\s` and `\w` of the Rust `regex` crate are
  modelled by `Char.isWhitespace` and alphanumeric-or-underscore, which
  agree on the ASCII inputs the tool works with.
* Filesystem paths (`PathBuf`) are lists of components (`List String`);
  the filesystem itself (reads, canonicalization, directory listings) is
  an explicit record of functions, since the Rust code calls `std::fs`.
* `HashSet<String>` is `Finset String`; `HashMap` is an association list
  (iteration order of a `HashMap` is unspecified in Rust, so nothing
  below depends on the order beyond determinism of the model).
* Recursion that is bounded in Rust only by the finiteness of the file
  system (include expansion, directory walks) takes an explicit fuel
  argument, decremented on every step so that the recursion is structural;
  any real run corresponds to a sufficiently large fuel.
-/

namespace GithubDistributedOwners

/-! ## String primitives, implemented on `String.data` -/

/-- Model of Rust `str::trim` (drop leading and trailing whitespace). -/
def trimChars (l : List Char) : List Char :=
  ((l.dropWhile Char.isWhitespace).reverse.dropWhile Char.isWhitespace).reverse

/-- Model of Rust `str::trim`. -/
def strTrim (s : String) : String := ⟨trimChars s.data⟩

/-- Model of Rust `str::starts_with`. -/
def strStartsWith (s pre : String) : Bool := pre.data.isPrefixOf s.data

/-- Model of Rust `str::ends_with`. -/
def strEndsWith (s suf : String) : Bool := suf.data.isSuffixOf s.data

/-- Drop the first `n` characters. -/
def strDrop (s : String) (n : Nat) : String := ⟨s.data.drop n⟩

/-- Drop the last `n` characters. -/
def strDropRight (s : String) (n : Nat) : String :=
  ⟨s.data.take (s.data.length - n)⟩

/-- Character count. -/
def strLength (s : String) : Nat := s.data.length

/-- Model of Rust `str::contains(char::is_whitespace)` and similar. -/
def strAny (s : String) (p : Char → Bool) : Bool := s.data.any p

/-- Model of Rust `str::contains(c)` for a single character. -/
def strContainsChar (s : String) (c : Char) : Bool := s.data.contains c

/-- Model of Rust `str::to_lowercase` (ASCII-adequate). -/
def strToLower (s : String) : String := ⟨s.data.map Char.toLower⟩

/-- Longest prefix of characters satisfying `p`. -/
def strTakeWhile (s : String) (p : Char → Bool) : String := ⟨s.data.takeWhile p⟩

/-- Remainder after `strTakeWhile`. -/
def strDropWhile (s : String) (p : Char → Bool) : String := ⟨s.data.dropWhile p⟩

/-- Split a character list at every occurrence of `sep` (like
Rust `str::split(sep)`): `n` separators yield `n + 1` pieces. -/
def splitChar (sep : Char) : List Char → List (List Char)
  | [] => [[]]
  | c :: rest =>
    let r := splitChar sep rest
    if c = sep then [] :: r
    else
      match r with
      | [] => [[c]]
      | x :: xs => (c :: x) :: xs

/-- String version of `splitChar`. -/
def strSplitChar (s : String) (sep : Char) : List String :=
  (splitChar sep s.data).map (fun l => ⟨l⟩)

/-- Model of `itertools` `.join(sep)`: concatenate with `sep` between
consecutive elements, empty string for the empty list. -/
def joinSep (sep : String) : List String → String
  | [] => ""
  | [x] => x
  | x :: y :: xs => x ++ sep ++ joinSep sep (y :: xs)

/-- Model of Rust `str::lines` followed by the loop over them: split on
`'\n'`, strip a trailing `'\r'` from each piece, and drop the final empty
piece produced by a trailing newline. -/
def strLines (text : String) : List String :=
  let ls := (strSplitChar text '\n').map
    (fun l => if strEndsWith l "\r" then strDropRight l 1 else l)
  if ls.getLast? = some "" then ls.dropLast else ls

/-- Lexicographic comparison of character lists (Rust's `Ord` on `str`:
byte order, which for UTF-8 equals code-point order). -/
def lexLeb : List Char → List Char → Bool
  | [], _ => true
  | _ :: _, [] => false
  | a :: as, b :: bs =>
    if a < b then true else if b < a then false else lexLeb as bs

theorem lexLeb_cons_lt {a b : Char} (as bs : List Char) (h : a < b) :
    lexLeb (a :: as) (b :: bs) = true := by
  simp only [lexLeb, if_pos h]

theorem lexLeb_cons_gt {a b : Char} (as bs : List Char) (h : b < a) :
    lexLeb (a :: as) (b :: bs) = false := by
  simp only [lexLeb, if_neg (asymm h), if_pos h]

theorem lexLeb_cons_eq (a : Char) (as bs : List Char) :
    lexLeb (a :: as) (a :: bs) = lexLeb as bs := by
  simp only [lexLeb, if_neg (lt_irrefl a)]

theorem lexLeb_total : ∀ as bs, lexLeb as bs = true ∨ lexLeb bs as = true
  | [], _ => Or.inl rfl
  | _ :: _, [] => Or.inr rfl
  | a :: as, b :: bs => by
    rcases lt_trichotomy a b with h | h | h
    · exact Or.inl (lexLeb_cons_lt as bs h)
    · subst h
      rw [lexLeb_cons_eq, lexLeb_cons_eq]
      exact lexLeb_total as bs
    · exact Or.inr (lexLeb_cons_lt bs as h)

theorem lexLeb_trans : ∀ as bs cs, lexLeb as bs = true → lexLeb bs cs = true →
    lexLeb as cs = true
  | [], _, _ => fun _ _ => rfl
  | _ :: _, [], _ => fun h _ => by simp [lexLeb] at h
  | _ :: _, _ :: _, [] => fun _ h => by simp [lexLeb] at h
  | a :: as, b :: bs, c :: cs => fun h1 h2 => by
    rcases lt_trichotomy a b with hab | hab | hab
    · rcases lt_trichotomy b c with hbc | hbc | hbc
      · exact lexLeb_cons_lt as cs (lt_trans hab hbc)
      · exact hbc ▸ lexLeb_cons_lt as cs hab
      · rw [lexLeb_cons_gt bs cs hbc] at h2; cases h2
    · subst hab
      rcases lt_trichotomy a c with hac | hac | hac
      · exact lexLeb_cons_lt as cs hac
      · subst hac
        rw [lexLeb_cons_eq] at h1 h2 ⊢
        exact lexLeb_trans as bs cs h1 h2
      · rw [lexLeb_cons_gt bs cs hac] at h2; cases h2
    · rw [lexLeb_cons_gt as bs hab] at h1; cases h1

theorem lexLeb_antisymm : ∀ as bs, lexLeb as bs = true → lexLeb bs as = true →
    as = bs
  | [], [] => fun _ _ => rfl
  | [], _ :: _ => fun _ h => by simp [lexLeb] at h
  | _ :: _, [] => fun h _ => by simp [lexLeb] at h
  | a :: as, b :: bs => fun h1 h2 => by
    rcases lt_trichotomy a b with hab | hab | hab
    · rw [lexLeb_cons_gt bs as hab] at h2; cases h2
    · subst hab
      rw [lexLeb_cons_eq] at h1 h2
      rw [lexLeb_antisymm as bs h1 h2]
    · rw [lexLeb_cons_gt as bs hab] at h1; cases h1

/-- The sorting order on strings: Rust's byte order on UTF-8. -/
def strLeData (a b : String) : Prop := lexLeb a.data b.data = true

instance strLeDataDecidable : DecidableRel strLeData := fun a b =>
  inferInstanceAs (Decidable (lexLeb a.data b.data = true))

instance strLeDataTotal : IsTotal String strLeData :=
  ⟨fun a b => lexLeb_total a.data b.data⟩

instance strLeDataTrans : IsTrans String strLeData :=
  ⟨fun a b c => lexLeb_trans a.data b.data c.data⟩

instance strLeDataAntisymm : IsAntisymm String strLeData :=
  ⟨fun a b h1 h2 => by
    have h := lexLeb_antisymm a.data b.data h1 h2
    cases a; cases b; exact congrArg String.mk h⟩

/-- Model of `itertools` `.sorted()` on strings (ascending in Rust's byte
order). -/
def sortStrings (l : List String) : List String := l.insertionSort strLeData

/-- The elements of a finite set of strings in ascending order: the
deterministic list a Rust `HashSet` is reduced to when the code sorts its
iterator.  (Defined by lifting `sortStrings` to the underlying multiset;
sorting is permutation-invariant, so the lift is well defined.) -/
def sortedOwners (s : Finset String) : List String :=
  Quot.liftOn s.val sortStrings
    (fun a b h =>
      List.eq_of_perm_of_sorted
        ((List.perm_insertionSort _ a).trans
          ((Quotient.exact (Quotient.sound h)).trans
            (List.perm_insertionSort _ b).symm))
        (List.sorted_insertionSort _ a) (List.sorted_insertionSort _ b))

/-! ## `owners_set.rs`: the ownership set and its directive interpreter -/

/-- `OwnersSet` from `src/owners_set.rs`: the tri-state inheritance flag
plus the set of owner identifiers. -/
structure OwnersSet where
  inherit : Option Bool := none
  owners : Finset String := ∅

/-- Equality of `OwnersSet`s is decidable.  (Spelled out so that the
decision procedure reduces in the kernel even when two equal `Finset`s
are built in different insertion orders.) -/
instance ownersSetDecEq : DecidableEq OwnersSet := fun a b =>
  match a, b with
  | ⟨i1, o1⟩, ⟨i2, o2⟩ =>
    match decEq i1 i2, decEq o1 o2 with
    | isTrue h1, isTrue h2 => isTrue (by rw [h1, h2])
    | isFalse h1, _ => isFalse (fun hc => h1 (congrArg OwnersSet.inherit hc))
    | _, isFalse h2 => isFalse (fun hc => h2 (congrArg OwnersSet.owners hc))

/-- A `\w` word character of the Rust `regex` crate (ASCII-adequate). -/
def isWordChar (c : Char) : Bool := c.isAlphanum || c = '_'

/-- Model of the regex `^\s*set\s(?<variable>\w+)\s*=\s*(?<value>\w+)\s*$`
used by `OwnersSet::maybe_process_set`: on a match, return the two capture
groups. -/
def setLineCaptures (line : String) : Option (String × String) :=
  let t := strDropWhile line Char.isWhitespace
  if strStartsWith t "set" then
    let r1 := strDrop t 3
    match r1.data with
    | [] => none
    | c :: _ =>
      if c.isWhitespace then
        let r2 := strDrop r1 1
        let var := strTakeWhile r2 isWordChar
        if var = "" then none
        else
          let r3 := strDropWhile (strDrop r2 (strLength var)) Char.isWhitespace
          if strStartsWith r3 "=" then
            let r4 := strDropWhile (strDrop r3 1) Char.isWhitespace
            let val := strTakeWhile r4 isWordChar
            if val = "" then none
            else if (strDrop r4 (strLength val)).data.all Char.isWhitespace then
              some (var, val)
            else none
          else none
      else none
  else none

/-- `OwnersSet::maybe_process_set` from `src/owners_set.rs`.  The Rust
method mutates `self` and returns `Result<bool>`; here it returns the
flag together with the updated set.  Error strings follow the source. -/
def OwnersSet.maybe_process_set (s : OwnersSet) (line : String) :
    Except String (Bool × OwnersSet) :=
  if strStartsWith line "set " = false then .ok (false, s)
  else
    match setLineCaptures line with
    | some (var, val) =>
      if var = "inherit" then
        if val = "true" then .ok (true, { s with inherit := some true })
        else if val = "false" then .ok (true, { s with inherit := some false })
        else .error "Invalid value for inherit: Must be true or false."
      else .error "Invalid set variable"
    | none => .error "Invalid set format. Expected set <variable> = <value>."

/-! ## `owners_file.rs`: declaration-file parsing with includes -/

/-- A filesystem path (`PathBuf`), as its list of components; `[]` is the
filesystem root `/`. -/
abbrev FsPath := List String

/-- `OwnersFileConfig` from `src/owners_file.rs`: the blanket set plus the
pattern-override map (modelled as an association list with unique keys;
Rust `HashMap` iteration order is unspecified, the list keeps first-insertion
order). -/
structure OwnersFileConfig where
  all_files : OwnersSet := {}
  pattern_overrides : List (String × OwnersSet) := []

/-- Equality of parsed configurations is decidable (kernel-reducible). -/
instance ownersFileConfigDecEq : DecidableEq OwnersFileConfig := fun a b =>
  match a, b with
  | ⟨a1, o1⟩, ⟨a2, o2⟩ =>
    match decEq a1 a2, decEq o1 o2 with
    | isTrue h1, isTrue h2 => isTrue (by rw [h1, h2])
    | isFalse h1, _ =>
      isFalse (fun hc => h1 (congrArg OwnersFileConfig.all_files hc))
    | _, isFalse h2 =>
      isFalse (fun hc => h2 (congrArg OwnersFileConfig.pattern_overrides hc))

/-- First value stored under `key`, if any (`HashMap::get`). -/
def overridesLookup (m : List (String × OwnersSet)) (key : String) :
    Option OwnersSet :=
  (m.find? (fun e => decide (e.1 = key))).map Prod.snd

/-- `HashMap::entry(key).or_default()`: insert an empty `OwnersSet` under
`key` when absent. -/
def overridesEnsure (m : List (String × OwnersSet)) (key : String) :
    List (String × OwnersSet) :=
  if (overridesLookup m key).isSome then m else m ++ [(key, ({} : OwnersSet))]

/-- Replace the value stored under `key`. -/
def overridesPut (m : List (String × OwnersSet)) (key : String)
    (v : OwnersSet) : List (String × OwnersSet) :=
  m.map (fun e => if e.1 = key then (key, v) else e)

/-- The external filesystem, as consulted by `std::fs` calls in
`owners_file.rs` and `owners_tree.rs`:
* `read p` models `fs::read_to_string` (and the `exists`/`is_file` test of
  `owners_tree.rs`): `none` means missing, unreadable or not a regular file;
* `canonicalize` models `fs::canonicalize` (resolving `..` and symlinks;
  `none` is failure, e.g. a non-existent path);
* `subdirs p` models the subdirectories among `fs::read_dir(p)` entries
  (the `path.is_dir()` branch of the tree builder). -/
structure FSModel where
  read : FsPath → Option String
  canonicalize : FsPath → Option FsPath
  subdirs : FsPath → List FsPath

/-- Parse errors.  The Rust code wraps errors in `anyhow` strings carrying
file/line context; the spec treats diagnostic wording as non-normative, so
the model keeps only the structurally meaningful payloads. -/
inductive ParseError where
  /-- an error string produced by `maybe_get_include` -/
  | includeFormat (msg : String)
  /-- `include is not allowed in path-specific sections` -/
  | includeInPatternSection
  /-- `current_path has no parent directory` in `resolve_include_path` -/
  | noParentDirectory
  /-- `Failed to canonicalize include path` -/
  | canonicalizeFailed (joined : FsPath)
  /-- `Include path ... is outside the repository base` -/
  | outsideRepositoryBase (canonical : FsPath)
  /-- a failing `fs::read_to_string` of the include target -/
  | readFailed (target : FsPath)
  /-- `Cycle detected in includes`, with the chain the error prints -/
  | cycleDetected (chain : List FsPath)
  /-- an error string produced by `maybe_process_set` -/
  | setLine (msg : String)
  /-- `set statements are not allowed inside includes` -/
  | setInsideInclude
  /-- `Invalid user/group ... cannot contain whitespace` -/
  | ownerWithWhitespace (line : String)
  /-- model artifact: the fuel bound was reached (a real run corresponds
  to any sufficiently large fuel) -/
  | outOfFuel
deriving DecidableEq

instance exceptDecEq {ε α : Type _} [DecidableEq ε] [DecidableEq α] :
    DecidableEq (Except ε α)
  | .error a, .error b =>
    match decEq a b with
    | isTrue h => isTrue (congrArg Except.error h)
    | isFalse h => isFalse (fun hc => h (Except.error.inj hc))
  | .error _, .ok _ => isFalse (fun hc => Except.noConfusion hc)
  | .ok _, .error _ => isFalse (fun hc => Except.noConfusion hc)
  | .ok a, .ok b =>
    match decEq a b with
    | isTrue h => isTrue (congrArg Except.ok h)
    | isFalse h => isFalse (fun hc => h (Except.ok.inj hc))

/-- `clean_line` from `src/owners_file.rs`: strip everything from the
first `#` on, then surrounding whitespace. -/
def clean_line (line : String) : String :=
  strTrim (strTakeWhile line (fun c => decide (c ≠ '#')))

/-- `maybe_get_file_pattern` from `src/owners_file.rs`: model of the regex
`^\s*\[\s*(?<pattern>\S+)\s*]\s*$`.  The trimmed line must be a bracket
pair whose trimmed interior is one non-empty whitespace-free token. -/
def maybe_get_file_pattern (line : String) : Option String :=
  let t := strTrim line
  if strStartsWith t "[" && strEndsWith t "]" && decide (2 ≤ strLength t) then
    let interior := strTrim (strDropRight (strDrop t 1) 1)
    if decide (interior ≠ "") && !(strAny interior Char.isWhitespace) then
      some interior
    else none
  else none

/-- `maybe_get_include` from `src/owners_file.rs`: model of the regexes
`^\s*include\s+(?<path>\S+)\s*$` (well-formed include) and
`^\s*include\s*$` (malformed include), plus the case-insensitive
`starts_with("include ")` fallback check on the raw line. -/
def maybe_get_include (line : String) : Except String (Option String) :=
  let t := strTrim line
  let reCapture : Option String :=
    if strStartsWith t "include" then
      let rest := strDrop t 7
      match rest.data with
      | [] => none
      | c :: _ =>
        if c.isWhitespace then
          let path := strTrim rest
          if !(strAny path Char.isWhitespace) then some path
          else none
        else none
    else none
  match reCapture with
  | some path =>
    -- dead `path.is_empty()` check kept from the source
    if path = "" then .error "Invalid include. Expected non-empty include path."
    else .ok (some path)
  | none =>
    if t = "include" then
      .error "Invalid include format. Expected include <path>."
    else if strStartsWith (strToLower line) "include " then
      .error "Invalid include format. Expected include <path>."
    else .ok none

/-- Components of an include-path token, for `Path::join`: split on `/` and
drop empty pieces (a `..` or `.` component is kept literally; it is the
subsequent `fs::canonicalize` that resolves it). -/
def pathComponents (s : String) : List String :=
  (strSplitChar s '/').filter (fun c => decide (c ≠ ""))

/-- `resolve_include_path` from `src/owners_file.rs` (Unix behaviour:
`Path::is_absolute` is "starts with `/`", in which case the leading
separator is stripped and the rest joined onto the repository base;
otherwise the token is joined onto the parent directory of the file being
parsed).  The joined path is canonicalized and must stay inside the
repository base. -/
def resolve_include_path (fs : FSModel) (repo_base current_path : FsPath)
    (include_path : String) : Except ParseError FsPath :=
  match current_path with
  | [] => .error .noParentDirectory
  | _ :: _ =>
    let current_dir := current_path.dropLast
    let joined :=
      if strStartsWith include_path "/" then
        repo_base ++ pathComponents include_path
      else
        current_dir ++ pathComponents include_path
    match fs.canonicalize joined with
    | none => .error (.canonicalizeFailed joined)
    | some canonical =>
      if repo_base.isPrefixOf canonical then .ok canonical
      else .error (.outsideRepositoryBase canonical)

/-- The `seen_owners_files` accumulator: `HashMap<PathBuf, Option<PathBuf>>`
mapping each file on the active include chain to the file that included it
(`none` for the top-level file), as an association list with unique keys. -/
abbrev SeenMap := List (FsPath × Option FsPath)

/-- `HashMap::get`. -/
def seenLookup (m : SeenMap) (k : FsPath) : Option (Option FsPath) :=
  (m.find? (fun e => decide (e.1 = k))).map Prod.snd

/-- `HashMap::insert` (replace when present, append when absent). -/
def seenInsert (m : SeenMap) (k : FsPath) (v : Option FsPath) : SeenMap :=
  if (seenLookup m k).isSome then
    m.map (fun e => if e.1 = k then (k, v) else e)
  else m ++ [(k, v)]

/-- `HashMap::remove`. -/
def seenRemove (m : SeenMap) (k : FsPath) : SeenMap :=
  m.filter (fun e => decide (e.1 ≠ k))

/-- The parent-pointer walk of `check_no_circular_include`: follow
`seen.get(current)` while it yields `Some(Some(parent))`.  The Rust loop
terminates because the map it is run on is parent-linked and finite; the
model makes that explicit with a step bound (instantiated with the map's
size, which dominates any chain length in such a map). -/
def walkParents (seen : SeenMap) : Nat → FsPath → List FsPath
  | 0, _ => []
  | steps + 1, current =>
    match seenLookup seen current with
    | some (some parent) => parent :: walkParents seen steps parent
    | _ => []

/-- The chain printed by `check_no_circular_include`: the offending path,
then its chain of including files, reversed into forward (root-to-leaf)
order. -/
def includeChain (path : FsPath) (seen : SeenMap) : List FsPath :=
  (path :: walkParents seen seen.length path).reverse

/-- `check_no_circular_include` from `src/owners_file.rs`. -/
def check_no_circular_include (path : FsPath) (seen : SeenMap) :
    Except ParseError Unit :=
  if (seenLookup seen path).isSome then
    .error (.cycleDetected (includeChain path seen))
  else .ok ()

/-- The line loop of `OwnersFileConfig::parse_text`
(`src/owners_file.rs`, lines 62-148), over the cleaned lines that remain
to process.  Arguments mirror the Rust state: the file being parsed
(`path`), the `active_pattern_key` context, the accumulating config and
the `seen_owners_files` chain.  An `include` line performs, inline, the
body of the recursive `parse_text` call on the included file (including
its final removal of the included file from the chain); `fuel` decreases
on every step, keeping the recursion structural.  Line numbers of the
Rust `enumerate` are carried but, with diagnostics elided, unused. -/
def parseLinesLoop (fs : FSModel) (repo_base : FsPath) :
    Nat → List (Nat × String) → FsPath → Option String → OwnersFileConfig →
    SeenMap → Except ParseError (OwnersFileConfig × SeenMap)
  | 0, _, _, _, _, _ => .error .outOfFuel
  | _ + 1, [], _, _, config, seen => .ok (config, seen)
  | fuel + 1, (_i, raw_line) :: rest, path, active_pattern_key, config, seen =>
    let line := clean_line raw_line
    if line = "" then
      parseLinesLoop fs repo_base fuel rest path active_pattern_key config seen
    else
      match maybe_get_include line with
      | .error e => .error (.includeFormat e)
      | .ok (some include_file) =>
        if active_pattern_key.isSome then .error .includeInPatternSection
        else
          match resolve_include_path fs repo_base path include_file with
          | .error e => .error e
          | .ok include_path =>
            match fs.read include_path with
            | none => .error (.readFailed include_path)
            | some include_text =>
              match check_no_circular_include include_path seen with
              | .error e => .error e
              | .ok () =>
                let seen1 := seenInsert seen include_path (some path)
                -- recursive `parse_text` on the included file; its
                -- `is_empty` initialisation cannot fire (`seen1` holds
                -- `include_path`) and is kept verbatim
                let seen2 :=
                  if seen1.isEmpty then seenInsert seen1 include_path none
                  else seen1
                match parseLinesLoop fs repo_base fuel
                    ((strLines include_text).enumFrom 0) include_path none
                    config seen2 with
                | .error e => .error e
                | .ok (config1, seen3) =>
                  parseLinesLoop fs repo_base fuel rest path
                    active_pattern_key config1 (seenRemove seen3 include_path)
      | .ok none =>
        -- scope the current target set, materialising the override entry
        -- (`entry(key).or_default()`) when inside a pattern section
        let config1 :=
          match active_pattern_key with
          | some key =>
            { config with
              pattern_overrides := overridesEnsure config.pattern_overrides key }
          | none => config
        let current_set :=
          match active_pattern_key with
          | some key => (overridesLookup config1.pattern_overrides key).getD ({} : OwnersSet)
          | none => config1.all_files
        match current_set.maybe_process_set line with
        | .error e => .error (.setLine e)
        | .ok (true, updated_set) =>
          -- more than one entry in `seen_owners_files` means we are
          -- inside an include, where `set` statements are not allowed
          if 1 < seen.length then .error .setInsideInclude
          else
            let config2 :=
              match active_pattern_key with
              | some key =>
                { config1 with
                  pattern_overrides :=
                    overridesPut config1.pattern_overrides key updated_set }
              | none => { config1 with all_files := updated_set }
            parseLinesLoop fs repo_base fuel rest path active_pattern_key
              config2 seen
        | .ok (false, _) =>
          match maybe_get_file_pattern line with
          | some new_file_pattern =>
            parseLinesLoop fs repo_base fuel rest path (some new_file_pattern)
              config1 seen
          | none =>
            if strAny line Char.isWhitespace then
              .error (.ownerWithWhitespace line)
            else
              let config2 :=
                match active_pattern_key with
                | some key =>
                  { config1 with
                    pattern_overrides :=
                      overridesPut config1.pattern_overrides key
                        { current_set with
                          owners := insert line current_set.owners } }
                | none =>
                  { config1 with
                    all_files :=
                      { current_set with
                        owners := insert line current_set.owners } }
              parseLinesLoop fs repo_base fuel rest path active_pattern_key
                config2 seen

/-- `OwnersFileConfig::parse_text` from `src/owners_file.rs`: seed the
chain with the top-level file when it is empty, run the line loop from
blanket scope, and remove the file from the chain afterwards. -/
def parse_text (fs : FSModel) (fuel : Nat) (config : OwnersFileConfig)
    (text : String) (path repo_base : FsPath) (seen : SeenMap) :
    Except ParseError (OwnersFileConfig × SeenMap) :=
  let seen0 := if seen.isEmpty then seenInsert seen path none else seen
  match parseLinesLoop fs repo_base fuel ((strLines text).enumFrom 0) path
      none config seen0 with
  | .error e => .error e
  | .ok (config1, seen1) => .ok (config1, seenRemove seen1 path)

/-- `OwnersFileConfig::from_text`: parse from a default config and an
empty chain, returning the config. -/
def from_text (fs : FSModel) (fuel : Nat) (text : String)
    (path repo_base : FsPath) : Except ParseError OwnersFileConfig :=
  match parse_text fs fuel {} text path repo_base [] with
  | .error e => .error e
  | .ok (config, _) => .ok config

/-- `OwnersFileConfig::from_file`: read the file, then `from_text`. -/
def from_file (fs : FSModel) (fuel : Nat) (path repo_base : FsPath) :
    Except ParseError OwnersFileConfig :=
  match fs.read path with
  | none => .error (.readFailed path)
  | some text => from_text fs fuel text path repo_base

/-! ## `owners_tree.rs`: the tree of declaring directories -/

/-- `TreeNode` from `src/owners_tree.rs` (also `OwnersTree`).
`TreeNode::new` canonicalizes the stored paths; in this model the root is
supplied canonical and `read_dir` of a canonical directory lists canonical
entries, so that step is the identity and is elided. -/
structure TreeNode where
  path : FsPath
  repo_base : FsPath
  owners_config : OwnersFileConfig
  children : List TreeNode

/-- `TreeNode::maybe_load_owners_file`: look for an `OWNERS` file directly
in the node's directory; it counts only if readable as a regular file
(`fs.read` succeeds) and admitted by the filter, in which case it is
parsed (`from_file`) into the node. -/
def maybe_load_owners_file (fs : FSModel) (allow : FsPath → Bool)
    (parse_fuel : Nat) (node : TreeNode) :
    Except ParseError (TreeNode × Bool) :=
  let owners_file := node.path ++ ["OWNERS"]
  match fs.read owners_file with
  | none => .ok (node, false)
  | some _ =>
    if allow owners_file = false then .ok (node, false)
    else
      match from_file fs parse_fuel owners_file node.repo_base with
      | .error e => .error e
      | .ok owners_config => .ok ({ node with owners_config }, true)

mutual

/-- `TreeNode::load_children_from_files` from `src/owners_tree.rs`:
`self_node` is the mutated `self` (the nearest declared ancestor
accumulating children), `directory` the directory being considered.  A
directory whose final component is `.git` is skipped before anything
else.  Otherwise a candidate node is built for `directory`; if the
directory has its own admitted `OWNERS` file, deeper directories
accumulate into the candidate node, which is then pushed onto
`self_node`'s children, else they accumulate into `self_node` itself. -/
def load_children_from_files (fs : FSModel) (allow : FsPath → Bool)
    (parse_fuel : Nat) (fuel : Nat) (self_node : TreeNode)
    (directory : FsPath) : Except ParseError TreeNode :=
  -- `directory.file_name().unwrap() == ".git"`: don't process git metadata
  if directory.getLast? = some ".git" then .ok self_node
  else
    match fuel with
    | 0 => .error .outOfFuel
    | fuel + 1 =>
      let current_loc_node : TreeNode :=
        { path := directory, repo_base := self_node.repo_base,
          owners_config := {}, children := [] }
      match maybe_load_owners_file fs allow parse_fuel current_loc_node with
      | .error e => .error e
      | .ok (current_loc_node, has_current_owners_file) =>
        if has_current_owners_file then
          match loadChildrenList fs allow parse_fuel fuel current_loc_node
              (fs.subdirs directory) with
          | .error e => .error e
          | .ok current_final =>
            .ok { self_node with
                  children := self_node.children ++ [current_final] }
        else
          loadChildrenList fs allow parse_fuel fuel self_node
            (fs.subdirs directory)

/-- The `for entry in fs::read_dir(directory)` loop of
`load_children_from_files`, restricted to its `path.is_dir()` entries.
Fuel decreases on every step so the mutual recursion is structural. -/
def loadChildrenList (fs : FSModel) (allow : FsPath → Bool)
    (parse_fuel : Nat) (fuel : Nat) (node : TreeNode)
    (dirs : List FsPath) : Except ParseError TreeNode :=
  match fuel with
  | 0 => .error .outOfFuel
  | fuel + 1 =>
    match dirs with
    | [] => .ok node
    | d :: rest =>
      match load_children_from_files fs allow parse_fuel fuel node d with
      | .error e => .error e
      | .ok node1 => loadChildrenList fs allow parse_fuel fuel node1 rest

end

/-- The `for entry in fs::read_dir(root)` loop of
`TreeNode::load_from_files`: only directories admitted by the filter are
descended into ("don't process file tree branches with no allowed
files"). -/
def loadRootList (fs : FSModel) (allow : FsPath → Bool) (parse_fuel : Nat)
    (fuel : Nat) (node : TreeNode) : List FsPath → Except ParseError TreeNode
  | [] => .ok node
  | d :: rest =>
    if allow d then
      match load_children_from_files fs allow parse_fuel fuel node d with
      | .error e => .error e
      | .ok node1 => loadRootList fs allow parse_fuel fuel node1 rest
    else loadRootList fs allow parse_fuel fuel node rest

/-- `TreeNode::load_from_files` from `src/owners_tree.rs`: the root node
always materializes (with or without its own `OWNERS` file), then each
admitted subdirectory of the root is walked. -/
def load_from_files (fs : FSModel) (allow : FsPath → Bool)
    (parse_fuel : Nat) (fuel : Nat) (root : FsPath) :
    Except ParseError TreeNode :=
  let root_node : TreeNode :=
    { path := root, repo_base := root, owners_config := {}, children := [] }
  match maybe_load_owners_file fs allow parse_fuel root_node with
  | .error e => .error e
  | .ok (root_node, _) => loadRootList fs allow parse_fuel fuel root_node
      (fs.subdirs root)

mutual

/-- All directory paths materialized as nodes in a tree. -/
def nodePaths : TreeNode → List FsPath
  | ⟨path, _, _, children⟩ => path :: nodePathsList children

/-- `nodePaths` over a list of children. -/
def nodePathsList : List TreeNode → List FsPath
  | [] => []
  | t :: ts => nodePaths t ++ nodePathsList ts

end

mutual

/-- Flatten a tree into `(path, parsed configuration)` pairs, node before
its descendants: a kernel-reducible summary used to state concrete facts
about built trees. -/
def nodeSummary : TreeNode → List (FsPath × OwnersFileConfig)
  | ⟨path, _, owners_config, children⟩ =>
    (path, owners_config) :: nodeSummaryList children

/-- `nodeSummary` over a list of children. -/
def nodeSummaryList : List TreeNode → List (FsPath × OwnersFileConfig)
  | [] => []
  | t :: ts => nodeSummary t ++ nodeSummaryList ts

end

/-! ## `codeowners.rs`: the resolver -/

/-- The resolved map being accumulated (`HashMap<String, HashSet<String>>`).
`insert` is modelled by consing, so the list records every insertion the
resolver performs, newest first; a lookup takes the first (most recent)
binding, matching `HashMap` overwrite semantics. -/
abbrev CodeownersMap := List (String × Finset String)

/-- `HashMap::insert`. -/
def cmInsert (m : CodeownersMap) (k : String) (v : Finset String) :
    CodeownersMap :=
  (k, v) :: m

/-- `HashMap::get` (first, i.e. most recent, binding). -/
def cmGet (m : CodeownersMap) (k : String) : Option (Finset String) :=
  (m.find? (fun e => decide (e.1 = k))).map Prod.snd

/-- Lines 71-80 of `src/codeowners.rs`: the path key of a node, from
`tree_node.path.strip_prefix(root_path)` (an error when `root_path` is
not a prefix), rendered with a trailing `/` and a leading `/` forced. -/
def relative_path_of (root_path node_path : FsPath) : Option String :=
  if root_path.isPrefixOf node_path then
    let rel := joinSep "/" (node_path.drop root_path.length) ++ "/"
    some (if strStartsWith rel "/" then rel else "/" ++ rel)
  else none

/-- The loop over `owners_config.pattern_overrides` in `add_codeowners`
(lines 93-103 of `src/codeowners.rs`): each override's owners, extended
with the directory-level `owners` when its inherit flag (or the implicit
default) says so, inserted under the `relative_path + pattern` key. -/
def addOverrides (relative_path : String) (owners : Finset String)
    (implicit_inherit : Bool) :
    List (String × OwnersSet) → CodeownersMap → CodeownersMap
  | [], codeowners => codeowners
  | (override_pattern, override_owners_set) :: rest, codeowners =>
    let override_owners :=
      override_owners_set.owners ∪
        (if override_owners_set.inherit = some true ∨
            (implicit_inherit = true ∧ override_owners_set.inherit = none)
         then owners else ∅)
    addOverrides relative_path owners implicit_inherit rest
      (cmInsert codeowners (relative_path ++ override_pattern) override_owners)

mutual

/-- `add_codeowners` from `src/codeowners.rs`: compute the node's path
key; gather the directory-level owners (the parent's effective owners
when inheriting, extended with the local owners); record them under the
path key; record each pattern override; recurse into the children with
the directory-level owners as their parent owners. -/
def add_codeowners (tree_node : TreeNode) (root_path : FsPath)
    (parent_owners : Finset String) (implicit_inherit : Bool)
    (codeowners : CodeownersMap) : Except String CodeownersMap :=
  match tree_node with
  | ⟨node_path, _, owners_config, children⟩ =>
    match relative_path_of root_path node_path with
    | none => .error "strip_prefix failed"
    | some relative_path =>
      let owners_set := owners_config.all_files
      let owners :=
        (if owners_set.inherit = some true ∨
            (implicit_inherit = true ∧ owners_set.inherit = none)
         then parent_owners else ∅) ∪ owners_set.owners
      let codeowners1 := cmInsert codeowners relative_path owners
      let codeowners2 := addOverrides relative_path owners implicit_inherit
        owners_config.pattern_overrides codeowners1
      addCodeownersList children root_path owners implicit_inherit
        codeowners2

/-- The recursion of `add_codeowners` over `tree_node.children`. -/
def addCodeownersList (nodes : List TreeNode) (root_path : FsPath)
    (owners : Finset String) (implicit_inherit : Bool)
    (codeowners : CodeownersMap) : Except String CodeownersMap :=
  match nodes with
  | [] => .ok codeowners
  | child :: rest =>
    match add_codeowners child root_path owners implicit_inherit codeowners with
    | .error e => .error e
    | .ok codeowners1 =>
      addCodeownersList rest root_path owners implicit_inherit codeowners1

end

/-- `generate_codeowners` from `src/codeowners.rs`. -/
def generate_codeowners (owners_tree : TreeNode) (implicit_inherit : Bool) :
    Except String CodeownersMap :=
  add_codeowners owners_tree owners_tree.path ∅ implicit_inherit []

/-! ## `codeowners.rs`: the serializer -/

/-- Owner rendering in `to_codeowners_string`: an owner containing `@` is
already fully qualified and emitted verbatim, any other owner gets an `@`
prepended. -/
def ownerDisplay (owner : String) : String :=
  if strContainsChar owner '@' then owner else "@" ++ owner

/-- One output line of `to_codeowners_string`: the pattern (with the root
key `/` rendered as the `*` wildcard), then the sorted, `@`-normalized
owners; a pattern with no owners stays bare. -/
def codeownersLine (pattern : String) (owners : Finset String) : String :=
  let line := if pattern = "/" then "*" else pattern
  let ownersStr := joinSep " " ((sortedOwners owners).map ownerDisplay)
  if ownersStr = "" then line else line ++ " " ++ ownersStr

/-- `to_codeowners_string` from `src/codeowners.rs`: keys sorted, one line
per key, and any line equal to the bare `*` filtered out ("don't include a
root level owner line if no owners are specified"). -/
def to_codeowners_string (codeowners : CodeownersMap) : String :=
  let lines := (sortStrings (codeowners.map Prod.fst)).map
    (fun pattern => codeownersLine pattern ((cmGet codeowners pattern).getD ∅))
  joinSep "\n" (lines.filter (fun l => decide (l ≠ "*")))

/-! ## Specification-side definitions used in the claims -/

/-- The effective blanket owner set of a node whose nearest declared
ancestor has effective blanket `parent_owners`, in the specification's
phrasing: the locally declared blanket owners, unioned with the
ancestor's when the local inherit flag is `true`, or unset with a `true`
global default; the local owners alone otherwise. -/
def effective_blanket (t : TreeNode) (parent_owners : Finset String)
    (implicit_inherit : Bool) : Finset String :=
  if t.owners_config.all_files.inherit = some true ∨
      (implicit_inherit = true ∧ t.owners_config.all_files.inherit = none)
  then t.owners_config.all_files.owners ∪ parent_owners
  else t.owners_config.all_files.owners

/-- The serializer as the specification words it: one line per path key,
keys sorted; the root key `/` renders as `*`; each line carries the
sorted, `@`-normalized owners, a key with an empty owner set yielding a
bare pattern line — except that an entry whose rendered pattern is the
bare root wildcard `*` with zero owners is omitted from the output
entirely. -/
def to_codeowners_string_spec (codeowners : CodeownersMap) : String :=
  joinSep "\n"
    ((sortStrings (codeowners.map Prod.fst)).filterMap
      (fun pattern =>
        if (if pattern = "/" then "*" else pattern) = "*" ∧
            ((cmGet codeowners pattern).getD ∅ : Finset String) = ∅ then none
        else some (codeownersLine pattern ((cmGet codeowners pattern).getD ∅))))

/-- A parent-linked `seen_owners_files` map for an active include chain
`p₀ → p₁ → ⋯`: the head is mapped to `parent` (`none` at top level) and
every later file to its predecessor. -/
def chain_seen (parent : Option FsPath) : List FsPath → SeenMap
  | [] => []
  | p :: rest => (p, parent) :: chain_seen (some p) rest

/-! ## Concrete filesystems used by witnesses and counterexamples -/

/-- An empty filesystem (no readable files, no directories). -/
def fsEmpty : FSModel where
  read := fun _ => none
  canonicalize := fun _ => none
  subdirs := fun _ => []

/-- A repository `/r` in which `/r/a/OWNERS` includes `/r/b/OWNERS`,
which itself includes `/r/c/OWNERS`: a two-level include chain. -/
def fsNestedInclude : FSModel where
  read := fun p =>
    if p = ["r", "a", "OWNERS"] then some "include /b/OWNERS"
    else if p = ["r", "b", "OWNERS"] then some "include /c/OWNERS\nbob"
    else if p = ["r", "c", "OWNERS"] then some "carol"
    else none
  canonicalize := fun p =>
    if p = ["r", "a", "OWNERS"] ∨ p = ["r", "b", "OWNERS"] ∨
        p = ["r", "c", "OWNERS"] then some p
    else none
  subdirs := fun _ => []

/-- A repository `/r` in which `/r/a/OWNERS` and `/r/b/OWNERS` include
each other: an include cycle of length 2. -/
def fsCycleInclude : FSModel where
  read := fun p =>
    if p = ["r", "a", "OWNERS"] then some "include /b/OWNERS"
    else if p = ["r", "b", "OWNERS"] then some "include /a/OWNERS"
    else none
  canonicalize := fun p =>
    if p = ["r", "a", "OWNERS"] ∨ p = ["r", "b", "OWNERS"] then some p
    else none
  subdirs := fun _ => []

/-- A repository `/r` with a diamond of includes: `/r/a/OWNERS` includes
`/r/b/OWNERS` then `/r/c/OWNERS`, each of which includes `/r/d/OWNERS`;
`d` is included twice from unrelated branches, which is not a cycle. -/
def fsDiamondInclude : FSModel where
  read := fun p =>
    if p = ["r", "a", "OWNERS"] then
      some "include /b/OWNERS\ninclude /c/OWNERS"
    else if p = ["r", "b", "OWNERS"] then some "include /d/OWNERS"
    else if p = ["r", "c", "OWNERS"] then some "include /d/OWNERS"
    else if p = ["r", "d", "OWNERS"] then some "dave"
    else none
  canonicalize := fun p =>
    if p = ["r", "a", "OWNERS"] ∨ p = ["r", "b", "OWNERS"] ∨
        p = ["r", "c", "OWNERS"] ∨ p = ["r", "d", "OWNERS"] then some p
    else none
  subdirs := fun _ => []

/-- A repository `/r` in which `/r/a/OWNERS` includes `/r/b/sub/OWNERS`
by a base-relative path, and that file in turn includes `../x/OWNERS`
relative to its own directory; canonicalization resolves the `..`. -/
def fsRelativeInclude : FSModel where
  read := fun p =>
    if p = ["r", "a", "OWNERS"] then some "include /b/sub/OWNERS"
    else if p = ["r", "b", "sub", "OWNERS"] then some "include ../x/OWNERS"
    else if p = ["r", "b", "x", "OWNERS"] then some "xavier"
    else none
  canonicalize := fun p =>
    if p = ["r", "b", "sub", "..", "x", "OWNERS"] then
      some ["r", "b", "x", "OWNERS"]
    else if p = ["r", "a", "OWNERS"] ∨ p = ["r", "b", "sub", "OWNERS"] ∨
        p = ["r", "b", "x", "OWNERS"] then some p
    else none
  subdirs := fun _ => []

/-- A repository `/r` whose only declaration file sits two directory
levels down, at `/r/a/b/OWNERS`. -/
def fsDeepTree : FSModel where
  read := fun p =>
    if p = ["r", "a", "b", "OWNERS"] then some "eve" else none
  canonicalize := fun p => some p
  subdirs := fun p =>
    if p = ["r"] then [["r", "a"]]
    else if p = ["r", "a"] then [["r", "a", "b"]]
    else []

/-- A filter that rejects exactly the directory `/r/a/b`, admitting
everything else (in particular the file `/r/a/b/OWNERS`). -/
def rejectDeepDir (p : FsPath) : Bool := decide (p ≠ ["r", "a", "b"])

/-- A repository whose root directory is itself named `.git`, with an
`OWNERS` file at the root and one in a subdirectory. -/
def fsGitRoot : FSModel where
  read := fun p =>
    if p = [".git", "OWNERS"] then some "root.owner"
    else if p = [".git", "sub", "OWNERS"] then some "sub.owner"
    else none
  canonicalize := fun p => some p
  subdirs := fun p =>
    if p = [".git"] then [[".git", "sub"]] else []

/-- The filter admitting every path. -/
def allowAll (_ : FsPath) : Bool := true

/-- A filter that rejects exactly the directory `/r/a`, a direct child of
the root `/r`. -/
def rejectTopDir (p : FsPath) : Bool := decide (p ≠ ["r", "a"])

section SanityChecks

example : clean_line "  ada # c " = "ada" := by decide
example : maybe_get_file_pattern "[*.rs]" = some "*.rs" := by decide
example : maybe_get_file_pattern "  [  bar.*  ]  " = some "bar.*" := by decide
example : maybe_get_file_pattern "ada.lovelace" = none := by decide
example : maybe_get_file_pattern "set inherit = false" = none := by decide
example : maybe_get_include "include foo/bar.owners" =
    .ok (some "foo/bar.owners") := by decide
example : maybe_get_include "  include   my_path   " =
    .ok (some "my_path") := by decide
example : (maybe_get_include "include").isOk = false := by decide
example : (maybe_get_include "include path with spaces").isOk = false := by
  decide
example : maybe_get_include "not an include" = .ok none := by decide
example : (OwnersSet.maybe_process_set {} "ada.lovelace") =
    .ok (false, {}) := by decide
example : (OwnersSet.maybe_process_set {} "set inherit = true") =
    .ok (true, { inherit := some true }) := by decide
example : (OwnersSet.maybe_process_set {} "set inherit = false") =
    .ok (true, { inherit := some false }) := by decide
example : (OwnersSet.maybe_process_set {} "set inherit = not_a_bool").isOk =
    false := by decide
example : (OwnersSet.maybe_process_set {} "set foo = bar").isOk = false := by
  decide

example : from_text fsEmpty 10 "ada.lovelace\ngrace.hopper\n"
    ["t", "OWNERS"] ["t"] =
    .ok { all_files := { inherit := none,
                         owners := {"ada.lovelace", "grace.hopper"} },
          pattern_overrides := [] } := by decide

example : from_text fsEmpty 10
    "set inherit = false\nada.lovelace\n\n[*.rs]\nkatherine.johnson\n"
    ["t", "OWNERS"] ["t"] =
    .ok { all_files := { inherit := some false, owners := {"ada.lovelace"} },
          pattern_overrides :=
            [("*.rs", { inherit := none,
                        owners := {"katherine.johnson"} })] } := by decide

example : from_text fsNestedInclude 10 "include /b/OWNERS"
    ["r", "a", "OWNERS"] ["r"] =
    .ok { all_files := { inherit := none, owners := {"bob", "carol"} },
          pattern_overrides := [] } := by decide

example : from_text fsCycleInclude 10 "include /b/OWNERS"
    ["r", "a", "OWNERS"] ["r"] =
    .error (.cycleDetected [["r", "a", "OWNERS"]]) := by decide

example : from_text fsDiamondInclude 10
    "include /b/OWNERS\ninclude /c/OWNERS" ["r", "a", "OWNERS"] ["r"] =
    .ok { all_files := { inherit := none, owners := {"dave"} },
          pattern_overrides := [] } := by decide

example : from_text fsRelativeInclude 10 "include /b/sub/OWNERS"
    ["r", "a", "OWNERS"] ["r"] =
    .ok { all_files := { inherit := none, owners := {"xavier"} },
          pattern_overrides := [] } := by decide

example : from_text fsEmpty 10 "[*.rs]" ["r", "OWNERS"] ["r"] =
    .ok { all_files := {}, pattern_overrides := [] } := by decide

example : (load_from_files fsDeepTree rejectDeepDir 10 10 ["r"]).map
    nodeSummary =
    .ok [(["r"], {}),
         (["r", "a", "b"],
          { all_files := { inherit := none, owners := {"eve"} },
            pattern_overrides := [] })] := by decide

example : (load_from_files fsGitRoot allowAll 10 10 [".git"]).map
    nodeSummary =
    .ok [([".git"],
          { all_files := { inherit := none, owners := {"root.owner"} },
            pattern_overrides := [] }),
         ([".git", "sub"],
          { all_files := { inherit := none, owners := {"sub.owner"} },
            pattern_overrides := [] })] := by decide

example :
    add_codeowners
      ⟨["t"], ["t"],
        { all_files := { inherit := none, owners := {"ada"} },
          pattern_overrides := [("*.rs", { inherit := some false,
                                           owners := {"margaret"} })] },
        [⟨["t", "foo", "bar"], ["t"],
          { all_files := { inherit := none, owners := {"grace"} },
            pattern_overrides := [] }, []⟩]⟩
      ["t"] ∅ true [] =
    .ok [("/foo/bar/", {"ada", "grace"}),
         ("/*.rs", {"margaret"}),
         ("/", {"ada"})] := by decide

example : to_codeowners_string
    [("/foo/bar/", ∅),
     ("/", {"ada.lovelace"}),
     ("/*.rs", {"margaret.hamilton", "ada.lovelace"})] =
    "* @ada.lovelace\n/*.rs @ada.lovelace @margaret.hamilton\n/foo/bar/" := by
  decide

example : to_codeowners_string [("/", ∅)] = "" := by decide

example : to_codeowners_string [("/", {"user@email.tld"})] =
    "* user@email.tld" := by decide

end SanityChecks

/-! ## Helper lemmas about the resolver -/

/-- `addOverrides` only adds entries: prior entries remain recorded. -/
theorem addOverrides_mem {x : String × Finset String} :
    ∀ (l : List (String × OwnersSet)) rel owners d m, x ∈ m →
      x ∈ addOverrides rel owners d l m
  | [], _, _, _, _, hx => hx
  | _ :: rest, rel, owners, d, _, hx =>
    addOverrides_mem rest rel owners d _ (List.mem_cons_of_mem _ hx)

mutual

/-- `add_codeowners` only adds entries: prior entries remain recorded. -/
theorem add_codeowners_mem : ∀ (t : TreeNode) root P d m r,
    add_codeowners t root P d m = .ok r → ∀ x ∈ m, x ∈ r
  | ⟨p, rb, cfg, children⟩, root, P, d, m, r => by
    intro h x hx
    unfold add_codeowners at h
    cases hrel : relative_path_of root p with
    | none => rw [hrel] at h; cases h
    | some rel =>
      rw [hrel] at h
      exact addCodeownersList_mem children root _ d _ r h x
        (addOverrides_mem _ _ _ _ _ (List.mem_cons_of_mem _ hx))

/-- `addCodeownersList` only adds entries. -/
theorem addCodeownersList_mem : ∀ (ts : List TreeNode) root P d m r,
    addCodeownersList ts root P d m = .ok r → ∀ x ∈ m, x ∈ r
  | [], root, P, d, m, r => by
    intro h x hx
    cases h
    exact hx
  | t :: rest, root, P, d, m, r => by
    intro h x hx
    unfold addCodeownersList at h
    cases hc : add_codeowners t root P d m with
    | error e => rw [hc] at h; cases h
    | ok m1 =>
      rw [hc] at h
      exact addCodeownersList_mem rest root P d m1 r h x
        (add_codeowners_mem t root P d m m1 hc x hx)

end

/-- The directory-level owner set computed by `add_codeowners` (gathered
as "parent if inheriting, then local") is the specification's effective
blanket. -/
theorem gathered_owners_eq_effective_blanket (t : TreeNode)
    (P : Finset String) (d : Bool) :
    ((if t.owners_config.all_files.inherit = some true ∨
          (d = true ∧ t.owners_config.all_files.inherit = none)
      then P else ∅) ∪ t.owners_config.all_files.owners) =
      effective_blanket t P d := by
  unfold effective_blanket
  by_cases h : t.owners_config.all_files.inherit = some true ∨
      (d = true ∧ t.owners_config.all_files.inherit = none)
  · rw [if_pos h, if_pos h, Finset.union_comm]
  · rw [if_neg h, if_neg h, Finset.empty_union]

/-- A successful `add_codeowners` call records the node's effective
blanket under the node's path key. -/
theorem add_codeowners_records_blanket (t : TreeNode) (root : FsPath)
    (P : Finset String) (d : Bool) (m r : CodeownersMap) (key : String)
    (h : add_codeowners t root P d m = .ok r)
    (hkey : relative_path_of root t.path = some key) :
    (key, effective_blanket t P d) ∈ r := by
  obtain ⟨p, rb, cfg, children⟩ := t
  unfold add_codeowners at h
  simp only at hkey
  rw [hkey] at h
  refine addCodeownersList_mem children root _ d _ r h _
    (addOverrides_mem _ _ _ _ _ ?_)
  rw [← gathered_owners_eq_effective_blanket ⟨p, rb, cfg, children⟩ P d]
  exact List.mem_cons_self _ _

/-- The path key `relative_path_of` computes for the root itself. -/
theorem relative_path_of_self (p : FsPath) :
    relative_path_of p p = some "/" := by
  unfold relative_path_of
  rw [if_pos (by simp [List.isPrefixOf_iff_prefix])]
  simp [joinSep, strStartsWith]

/-- `addOverrides` records, for every declared override, its owners
extended (when its flag or the default says so) with the directory-level
owner set, under the `relative_path ++ pattern` key. -/
theorem addOverrides_records (rel : String) (owners : Finset String)
    (d : Bool) :
    ∀ (l : List (String × OwnersSet)) (m : CodeownersMap) pat oset,
      (pat, oset) ∈ l →
      (rel ++ pat,
        oset.owners ∪
          (if oset.inherit = some true ∨ (d = true ∧ oset.inherit = none)
           then owners else ∅)) ∈ addOverrides rel owners d l m
  | [], m, pat, oset, hmem => absurd hmem (List.not_mem_nil _)
  | (p0, s0) :: rest, m, pat, oset, hmem => by
    rcases List.mem_cons.mp hmem with heq | htail
    · obtain ⟨h1, h2⟩ := Prod.mk.injEq .. ▸ heq
      subst h1; subst h2
      exact addOverrides_mem rest rel owners d _ (List.mem_cons_self _ _)
    · exact addOverrides_records rel owners d rest _ pat oset htail

/-! ## C1 and C2: the resolver's inheritance rules -/

/-- C1: Resolver blanket inheritance rule.  For every node reached by the
resolver with ancestor effective blanket owners `P`, locally declared
blanket owners `O`, local inherit flag `f` and global default `d`, a
successful resolution records, under the node's path key, the owners
`O ∪ P` when `f = true` or (`f` unset and `d = true`), and exactly `O`
otherwise (`effective_blanket` spells out exactly that case split); at
the root (where `generate_codeowners` starts with no ancestor owners) the
recorded effective blanket is the locally declared blanket owners alone. -/
theorem resolver_blanket_inheritance :
    (∀ (t : TreeNode) (root : FsPath) (P : Finset String) (d : Bool)
       (m r : CodeownersMap) (key : String),
       add_codeowners t root P d m = .ok r →
       relative_path_of root t.path = some key →
       (key, effective_blanket t P d) ∈ r) ∧
    ∀ (tree : TreeNode) (d : Bool) (r : CodeownersMap),
      generate_codeowners tree d = .ok r →
      ("/", tree.owners_config.all_files.owners) ∈ r := by
  constructor
  · exact add_codeowners_records_blanket
  · intro tree d r h
    have hmem := add_codeowners_records_blanket tree tree.path ∅ d [] r "/"
      h (relative_path_of_self tree.path)
    have : effective_blanket tree ∅ d = tree.owners_config.all_files.owners := by
      unfold effective_blanket
      split <;> simp
    rwa [this] at hmem

/-- Witness for C1: a node declaring blanket owner `b` with an unset
flag, under ancestor owners `{a}` and global default `true`, records
`{a, b}` under its key `/sub/`. -/
theorem resolver_blanket_inheritance_witness :
    add_codeowners
        ⟨["root", "sub"], ["root"],
          { all_files := { inherit := none, owners := {"b"} },
            pattern_overrides := [] }, []⟩
        ["root"] {"a"} true [] = .ok [("/sub/", {"a", "b"})] ∧
    relative_path_of ["root"] ["root", "sub"] = some "/sub/" ∧
    ("/sub/",
      effective_blanket
        ⟨["root", "sub"], ["root"],
          { all_files := { inherit := none, owners := {"b"} },
            pattern_overrides := [] }, []⟩
        {"a"} true) ∈ ([("/sub/", ({"a", "b"} : Finset String))] :
          CodeownersMap) :=
  ⟨by decide, by decide,
    resolver_blanket_inheritance.1
      ⟨["root", "sub"], ["root"],
        { all_files := { inherit := none, owners := {"b"} },
          pattern_overrides := [] }, []⟩
      ["root"] {"a"} true [] [("/sub/", {"a", "b"})] "/sub/"
      (by decide) (by decide)⟩

/-- Reshaping of the override owner set computed by the resolver ("local
owners, extended with the blanket when inheriting") into the
specification's case split. -/
theorem override_value_eq (oset : OwnersSet) (eff : Finset String) (d : Bool) :
    oset.owners ∪
        (if oset.inherit = some true ∨ (d = true ∧ oset.inherit = none)
         then eff else ∅) =
      if oset.inherit = some true ∨ (d = true ∧ oset.inherit = none)
      then oset.owners ∪ eff else oset.owners := by
  split <;> simp

/-- C2: Pattern-override inheritance rule.  For every node the resolver
reaches with ancestor effective blanket `P` and every pattern override
declared at that node, a successful resolution records, under the
`path key ++ pattern` key, the override's locally declared owners unioned
with this node's own effective blanket (`effective_blanket t P d`, not
the ancestor's blanket `P`) when the override's inherit flag is true or
unset with a true global default, and the override's locally declared
owners alone otherwise. -/
theorem resolver_override_inheritance :
    ∀ (t : TreeNode) (root : FsPath) (P : Finset String) (d : Bool)
      (m r : CodeownersMap) (key pat : String) (oset : OwnersSet),
      add_codeowners t root P d m = .ok r →
      relative_path_of root t.path = some key →
      (pat, oset) ∈ t.owners_config.pattern_overrides →
      (key ++ pat,
        if oset.inherit = some true ∨ (d = true ∧ oset.inherit = none)
        then oset.owners ∪ effective_blanket t P d
        else oset.owners) ∈ r := by
  intro t root P d m r key pat oset h hkey hmem
  obtain ⟨p, rb, cfg, children⟩ := t
  unfold add_codeowners at h
  simp only at hkey hmem
  rw [hkey] at h
  rw [← override_value_eq oset
    (effective_blanket ⟨p, rb, cfg, children⟩ P d) d,
    ← gathered_owners_eq_effective_blanket ⟨p, rb, cfg, children⟩ P d]
  exact addCodeownersList_mem children root _ d _ r h _
    (addOverrides_records _ _ _ _ _ pat oset hmem)

/-- Witness for C2: a node with blanket `{b}` (inheriting ancestor `{a}`)
and an override `[*.rs]` declaring `{c}` with an unset flag under global
default `true` records `{c} ∪ {a, b}` under `/sub/*.rs`. -/
theorem resolver_override_inheritance_witness :
    add_codeowners
        ⟨["root", "sub"], ["root"],
          { all_files := { inherit := none, owners := {"b"} },
            pattern_overrides :=
              [("*.rs", { inherit := none, owners := {"c"} })] }, []⟩
        ["root"] {"a"} true [] =
      .ok [("/sub/*.rs", {"a", "b", "c"}), ("/sub/", {"a", "b"})] ∧
    ("/sub/" ++ "*.rs",
      if (none : Option Bool) = some true ∨ (true = true ∧ (none : Option Bool) = none)
      then ({"c"} : Finset String) ∪
        effective_blanket
          ⟨["root", "sub"], ["root"],
            { all_files := { inherit := none, owners := {"b"} },
              pattern_overrides :=
                [("*.rs", { inherit := none, owners := {"c"} })] }, []⟩
          {"a"} true
      else {"c"}) ∈
      ([("/sub/*.rs", ({"a", "b", "c"} : Finset String)),
        ("/sub/", ({"a", "b"} : Finset String))] : CodeownersMap) :=
  ⟨by decide,
    resolver_override_inheritance
      ⟨["root", "sub"], ["root"],
        { all_files := { inherit := none, owners := {"b"} },
          pattern_overrides :=
            [("*.rs", { inherit := none, owners := {"c"} })] }, []⟩
      ["root"] {"a"} true []
      [("/sub/*.rs", {"a", "b", "c"}), ("/sub/", {"a", "b"})]
      "/sub/" "*.rs" { inherit := none, owners := {"c"} }
      (by decide) (by decide) (by decide)⟩

/-! ## C9: the `set` directive interpreter -/

/-- C9: Directive interpreter contract.  A line not starting with the
token `set ` is reported as "not a directive" with the ownership set left
unmodified.  A line starting with `set ` must fully match the directive
grammar (`setLineCaptures`, the model of the source's
`^\s*set\s(\w+)\s*=\s*(\w+)\s*$` regex) or an error is returned; the only
recognized directive name is `inherit` with accepted values exactly
`true` and `false`, which set the inherit flag accordingly and report a
directive; any other directive name, and any other value for `inherit`,
is an error. -/
theorem set_directive_contract :
    (∀ (s : OwnersSet) (line : String), strStartsWith line "set " = false →
       OwnersSet.maybe_process_set s line = .ok (false, s)) ∧
    (∀ (s : OwnersSet) (line : String), strStartsWith line "set " = true →
       setLineCaptures line = none →
       ∃ e, OwnersSet.maybe_process_set s line = .error e) ∧
    (∀ (s : OwnersSet) (line var val : String),
       strStartsWith line "set " = true →
       setLineCaptures line = some (var, val) → var ≠ "inherit" →
       ∃ e, OwnersSet.maybe_process_set s line = .error e) ∧
    (∀ (s : OwnersSet) (line val : String),
       strStartsWith line "set " = true →
       setLineCaptures line = some ("inherit", val) →
       val ≠ "true" → val ≠ "false" →
       ∃ e, OwnersSet.maybe_process_set s line = .error e) ∧
    (∀ (s : OwnersSet) (line : String),
       strStartsWith line "set " = true →
       setLineCaptures line = some ("inherit", "true") →
       OwnersSet.maybe_process_set s line =
         .ok (true, { s with inherit := some true })) ∧
    (∀ (s : OwnersSet) (line : String),
       strStartsWith line "set " = true →
       setLineCaptures line = some ("inherit", "false") →
       OwnersSet.maybe_process_set s line =
         .ok (true, { s with inherit := some false })) := by
  refine ⟨?_, ?_, ?_, ?_, ?_, ?_⟩
  · intro s line h
    simp [OwnersSet.maybe_process_set, h]
  · intro s line h1 h2
    exact ⟨"Invalid set format. Expected set <variable> = <value>.",
      by simp [OwnersSet.maybe_process_set, h1, h2]⟩
  · intro s line var val h1 h2 h3
    exact ⟨"Invalid set variable",
      by simp [OwnersSet.maybe_process_set, h1, h2, h3]⟩
  · intro s line val h1 h2 h3 h4
    exact ⟨"Invalid value for inherit: Must be true or false.",
      by simp [OwnersSet.maybe_process_set, h1, h2, h3, h4]⟩
  · intro s line h1 h2
    simp [OwnersSet.maybe_process_set, h1, h2]
  · intro s line h1 h2
    simp [OwnersSet.maybe_process_set, h1, h2]

/-- Witness for C9: `set inherit = true` is recognized and flips the
flag; its grammar parse yields the expected captures. -/
theorem set_directive_contract_witness :
    strStartsWith "set inherit = true" "set " = true ∧
    setLineCaptures "set inherit = true" = some ("inherit", "true") ∧
    OwnersSet.maybe_process_set { inherit := none, owners := ∅ }
        "set inherit = true" =
      .ok (true, { inherit := some true, owners := ∅ }) :=
  ⟨by decide, by decide,
    set_directive_contract.2.2.2.2.1 { inherit := none, owners := ∅ }
      "set inherit = true" (by decide) (by decide)⟩

/-! ## C3: the serializer rendering contract -/

theorem strData_append (a b : String) : (a ++ b).data = a.data ++ b.data := by
  cases a; cases b; rfl

theorem str_eq_empty_iff (s : String) : s = "" ↔ s.data = [] := by
  cases s with
  | mk d =>
    constructor
    · intro h
      rw [h]
    · intro h
      exact congrArg String.mk h

theorem ownerDisplay_data_ne (o : String) : (ownerDisplay o).data ≠ [] := by
  unfold ownerDisplay
  split
  · next h =>
    intro hnil
    rw [strContainsChar, hnil] at h
    simp at h
  · next h =>
    intro hnil
    rw [strData_append] at hnil
    simp at hnil

theorem joinSep_cons_data_ne (sep x : String) (xs : List String)
    (hx : x.data ≠ []) : (joinSep sep (x :: xs)).data ≠ [] := by
  cases xs with
  | nil => exact hx
  | cons y ys =>
    rw [joinSep, strData_append, strData_append]
    simp [hx]

theorem sortedOwners_eq_nil {s : Finset String}
    (h : sortedOwners s = []) : s = ∅ := by
  rcases s with ⟨val, nodup⟩
  revert nodup h
  refine Quot.inductionOn val ?_
  intro l nodup h
  have hp := List.perm_insertionSort strLeData l
  rw [show sortedOwners ⟨Quot.mk _ l, nodup⟩ = sortStrings l from rfl] at h
  rw [show sortStrings l = l.insertionSort strLeData from rfl] at h
  rw [h] at hp
  have hl : l = [] := hp.symm.eq_nil
  subst hl
  exact Finset.val_inj.mp rfl

theorem append_space_ne_star (a c : String) (hc : c.data ≠ []) :
    a ++ " " ++ c ≠ "*" := by
  intro h
  have hd := congrArg String.data h
  rw [strData_append, strData_append] at hd
  have hlen := congrArg List.length hd
  rw [List.length_append, List.length_append] at hlen
  rw [show (" " : String).data.length = 1 from rfl,
    show ("*" : String).data.length = 1 from rfl] at hlen
  have := List.length_pos.mpr hc
  omega

/-- The rendered line is the bare `*` exactly when the rendered pattern
is `*` and the owner set is empty. -/
theorem codeownersLine_eq_star_iff (pat : String) (o : Finset String) :
    codeownersLine pat o = "*" ↔
      ((if pat = "/" then "*" else pat) = "*" ∧ o = ∅) := by
  by_cases ho : o = ∅
  · subst ho
    unfold codeownersLine
    rw [show sortedOwners ∅ = [] from rfl]
    simp [joinSep]
  · have hnil : sortedOwners o ≠ [] := fun hq => ho (sortedOwners_eq_nil hq)
    unfold codeownersLine
    cases hso : sortedOwners o with
    | nil => exact absurd hso hnil
    | cons x xs =>
      have hne : (joinSep " " ((x :: xs).map ownerDisplay)).data ≠ [] :=
        joinSep_cons_data_ne " " (ownerDisplay x) (xs.map ownerDisplay)
          (ownerDisplay_data_ne x)
      rw [if_neg (fun hemp => hne ((str_eq_empty_iff _).mp hemp))]
      constructor
      · intro hstar
        exact absurd hstar (append_space_ne_star _ _ hne)
      · intro ⟨_, hemp⟩
        exact absurd hemp ho

/-- The filtered-map form used by the source serializer coincides with
the specification's filter-by-omission form, key by key. -/
theorem serializer_lines_eq (m : CodeownersMap) : ∀ ks : List String,
    (ks.map (fun pattern =>
        codeownersLine pattern ((cmGet m pattern).getD ∅))).filter
      (fun l => decide (l ≠ "*")) =
    ks.filterMap (fun pattern =>
      if (if pattern = "/" then "*" else pattern) = "*" ∧
          ((cmGet m pattern).getD ∅ : Finset String) = ∅ then none
      else some (codeownersLine pattern ((cmGet m pattern).getD ∅)))
  | [] => rfl
  | k :: ks => by
    rw [List.map_cons]
    by_cases hstar : codeownersLine k ((cmGet m k).getD ∅) = "*"
    · rw [List.filterMap_cons_none
        (by rw [if_pos ((codeownersLine_eq_star_iff _ _).mp hstar)]),
        List.filter_cons_of_neg (by simp [hstar])]
      exact serializer_lines_eq m ks
    · rw [List.filterMap_cons_some
        (by rw [if_neg (fun hc => hstar ((codeownersLine_eq_star_iff _ _).mpr hc))]),
        List.filter_cons_of_pos (by simp [hstar])]
      rw [serializer_lines_eq m ks]

/-- C3: Serializer rendering contract.  For every resolved map the source
serializer's output equals the specification's rendering: one line per
path key in sorted key order, each line the pattern (root `/` rendered as
`*`) followed by its sorted `@`-normalized owners (`@` prepended unless
the owner already contains `@`), empty owner sets yielding bare pattern
lines, and the bare root `*` line with zero owners omitted entirely. -/
theorem serializer_contract (codeowners : CodeownersMap) :
    to_codeowners_string codeowners = to_codeowners_string_spec codeowners := by
  unfold to_codeowners_string to_codeowners_string_spec
  exact congrArg (joinSep "\n")
    (serializer_lines_eq codeowners (sortStrings (codeowners.map Prod.fst)))

/-! ## Helper lemmas about the parser's override map -/

theorem overridesLookup_isSome_iff (m : List (String × OwnersSet))
    (k : String) : (overridesLookup m k).isSome ↔ k ∈ m.map Prod.fst := by
  induction m with
  | nil => simp [overridesLookup]
  | cons a rest ih =>
    by_cases h : a.1 = k
    · simp [overridesLookup, List.find?_cons, h]
    · simp only [overridesLookup, List.find?_cons, decide_eq_false h] at ih ⊢
      simp only [List.map_cons, List.mem_cons]
      rw [ih]
      simp [Ne.symm h]

theorem overridesEnsure_keys_self (m : List (String × OwnersSet))
    (k : String) : k ∈ (overridesEnsure m k).map Prod.fst := by
  unfold overridesEnsure
  by_cases h : (overridesLookup m k).isSome
  · rw [if_pos h]
    exact (overridesLookup_isSome_iff m k).mp h
  · rw [if_neg h, List.map_append]
    exact List.mem_append_right _ (by simp)

theorem overridesEnsure_keys_mono (m : List (String × OwnersSet))
    (k k' : String) (h : k ∈ m.map Prod.fst) :
    k ∈ (overridesEnsure m k').map Prod.fst := by
  unfold overridesEnsure
  split
  · exact h
  · rw [List.map_append]
    exact List.mem_append_left _ h

theorem overridesPut_keys (m : List (String × OwnersSet)) (k' : String)
    (v : OwnersSet) : (overridesPut m k' v).map Prod.fst = m.map Prod.fst := by
  induction m with
  | nil => rfl
  | cons a rest ih =>
    unfold overridesPut at ih ⊢
    simp only [List.map_cons]
    rw [ih]
    by_cases h : a.1 = k'
    · rw [if_pos h]
      simp [h]
    · rw [if_neg h]

/-- The override keys a parse has already materialized are never removed:
any key present in the accumulating configuration is present in the
result of a successful `parseLinesLoop` run. -/
theorem parseLinesLoop_keys_mono (fs : FSModel) (repo_base : FsPath) :
    ∀ (fuel : Nat) (lines : List (Nat × String)) (path : FsPath)
      (active : Option String) (cfg : OwnersFileConfig) (seen : SeenMap)
      (out : OwnersFileConfig × SeenMap) (k : String),
      parseLinesLoop fs repo_base fuel lines path active cfg seen = .ok out →
      k ∈ cfg.pattern_overrides.map Prod.fst →
      k ∈ out.1.pattern_overrides.map Prod.fst := by
  intro fuel
  induction fuel with
  | zero =>
    intro lines path active cfg seen out k h
    cases h
  | succ fuel ih =>
    intro lines path active cfg seen out k h hk
    cases lines with
    | nil =>
      cases h
      exact hk
    | cons hd rest =>
      obtain ⟨i, raw⟩ := hd
      simp only [parseLinesLoop] at h
      by_cases hline : clean_line raw = ""
      · rw [if_pos hline] at h
        exact ih rest path active cfg seen out k h hk
      · rw [if_neg hline] at h
        cases hinc : maybe_get_include (clean_line raw) with
        | error e => rw [hinc] at h; cases h
        | ok oinc =>
          rw [hinc] at h
          cases oinc with
          | some inc =>
            simp only at h
            by_cases hact : active.isSome
            · rw [if_pos hact] at h; cases h
            · rw [if_neg hact] at h
              cases hres : resolve_include_path fs repo_base path inc with
              | error e => rw [hres] at h; cases h
              | ok ipath =>
                rw [hres] at h
                simp only at h
                cases hread : fs.read ipath with
                | none => rw [hread] at h; cases h
                | some itext =>
                  rw [hread] at h
                  simp only at h
                  cases hcyc : check_no_circular_include ipath seen with
                  | error e => rw [hcyc] at h; cases h
                  | ok u =>
                    cases u
                    rw [hcyc] at h
                    simp only at h
                    cases hrec : parseLinesLoop fs repo_base fuel
                        ((strLines itext).enumFrom 0) ipath none cfg
                        (if (seenInsert seen ipath (some path)).isEmpty then
                          seenInsert (seenInsert seen ipath (some path)) ipath
                            none
                         else seenInsert seen ipath (some path)) with
                    | error e => rw [hrec] at h; cases h
                    | ok mid =>
                      rw [hrec] at h
                      obtain ⟨config1, seen3⟩ := mid
                      have hk1 := ih _ _ _ _ _ _ k hrec hk
                      exact ih _ _ _ _ _ _ k h hk1
          | none =>
            simp only at h
            cases active with
            | none =>
              cases hset : cfg.all_files.maybe_process_set (clean_line raw) with
              | error e => rw [hset] at h; cases h
              | ok res =>
                rw [hset] at h
                obtain ⟨flag, updated⟩ := res
                cases flag with
                | true =>
                  simp only at h
                  by_cases hlen : 1 < seen.length
                  · rw [if_pos hlen] at h; cases h
                  · rw [if_neg hlen] at h
                    exact ih _ _ _ _ _ _ k h hk
                | false =>
                  simp only at h
                  cases hpat : maybe_get_file_pattern (clean_line raw) with
                  | some pat =>
                    rw [hpat] at h
                    exact ih _ _ _ _ _ _ k h hk
                  | none =>
                    rw [hpat] at h
                    by_cases hws : strAny (clean_line raw) Char.isWhitespace
                    · rw [if_pos hws] at h; cases h
                    · rw [if_neg hws] at h
                      exact ih _ _ _ _ _ _ k h hk
            | some key =>
              simp only at h
              cases hset : ((overridesLookup
                  (overridesEnsure cfg.pattern_overrides key) key).getD
                    {}).maybe_process_set (clean_line raw) with
              | error e => rw [hset] at h; cases h
              | ok res =>
                rw [hset] at h
                obtain ⟨flag, updated⟩ := res
                have hkEnsure : k ∈ (overridesEnsure cfg.pattern_overrides
                    key).map Prod.fst :=
                  overridesEnsure_keys_mono _ k key hk
                cases flag with
                | true =>
                  simp only at h
                  by_cases hlen : 1 < seen.length
                  · rw [if_pos hlen] at h; cases h
                  · rw [if_neg hlen] at h
                    refine ih _ _ _ _ _ _ k h ?_
                    simpa [overridesPut_keys] using hkEnsure
                | false =>
                  simp only at h
                  cases hpat : maybe_get_file_pattern (clean_line raw) with
                  | some pat =>
                    rw [hpat] at h
                    exact ih _ _ _ _ _ _ k h hkEnsure
                  | none =>
                    rw [hpat] at h
                    by_cases hws : strAny (clean_line raw) Char.isWhitespace
                    · rw [if_pos hws] at h; cases h
                    · rw [if_neg hws] at h
                      refine ih _ _ _ _ _ _ k h ?_
                      simpa [overridesPut_keys] using hkEnsure

/-! ## C6: when a pattern-override entry is materialized -/

/-- Counterexample to C6 as stated: a declaration file whose single line
is the recognized pattern header `[*.rs]` parses successfully into a
configuration whose overrides mapping has no entry at all — the header
alone does not create the entry. -/
theorem lone_pattern_header_creates_no_entry :
    maybe_get_file_pattern "[*.rs]" = some "*.rs" ∧
    from_text fsEmpty 10 "[*.rs]" ["r", "OWNERS"] ["r"] =
      .ok { all_files := { inherit := none, owners := ∅ },
            pattern_overrides := [] } ∧
    overridesLookup [] "*.rs" = none := by
  refine ⟨by decide, by decide, rfl⟩

/-- C6 as amended: the entry for a recognized pattern is created (empty
if new) when the first subsequent non-blank, non-include line is
processed while that pattern's section is active — any such line
(directive, header or owner) materializes it via
`entry(key).or_default()`, and the entry then persists to the end of a
successful parse; a pattern header followed by no further line leaves no
entry (see the counterexample). -/
theorem pattern_section_entry_on_next_line :
    ∀ (fs : FSModel) (repo_base : FsPath) (fuel : Nat) (i : Nat)
      (raw : String) (rest : List (Nat × String)) (path : FsPath)
      (pat : String) (cfg : OwnersFileConfig) (seen : SeenMap)
      (out : OwnersFileConfig × SeenMap),
      clean_line raw ≠ "" →
      maybe_get_include (clean_line raw) = .ok none →
      parseLinesLoop fs repo_base fuel ((i, raw) :: rest) path (some pat) cfg
        seen = .ok out →
      pat ∈ out.1.pattern_overrides.map Prod.fst := by
  intro fs repo_base fuel i raw rest path pat cfg seen out hline hinc h
  cases fuel with
  | zero => cases h
  | succ fuel =>
    simp only [parseLinesLoop] at h
    rw [if_neg hline, hinc] at h
    simp only at h
    have hself : pat ∈ (overridesEnsure cfg.pattern_overrides pat).map
        Prod.fst := overridesEnsure_keys_self _ _
    cases hset : ((overridesLookup
        (overridesEnsure cfg.pattern_overrides pat) pat).getD
          {}).maybe_process_set (clean_line raw) with
    | error e => rw [hset] at h; cases h
    | ok res =>
      rw [hset] at h
      obtain ⟨flag, updated⟩ := res
      cases flag with
      | true =>
        simp only at h
        by_cases hlen : 1 < seen.length
        · rw [if_pos hlen] at h; cases h
        · rw [if_neg hlen] at h
          refine parseLinesLoop_keys_mono fs repo_base fuel _ _ _ _ _ _ pat
            h ?_
          simpa [overridesPut_keys] using hself
      | false =>
        simp only at h
        cases hpat : maybe_get_file_pattern (clean_line raw) with
        | some newpat =>
          rw [hpat] at h
          exact parseLinesLoop_keys_mono fs repo_base fuel _ _ _ _ _ _ pat
            h hself
        | none =>
          rw [hpat] at h
          by_cases hws : strAny (clean_line raw) Char.isWhitespace
          · rw [if_pos hws] at h; cases h
          · rw [if_neg hws] at h
            refine parseLinesLoop_keys_mono fs repo_base fuel _ _ _ _ _ _ pat
              h ?_
            simpa [overridesPut_keys] using hself

/-- Witness for the amended C6: an owner line processed while the
`[*.rs]` section is active materializes the `*.rs` entry. -/
theorem pattern_section_entry_on_next_line_witness :
    clean_line "alice" ≠ "" ∧
    maybe_get_include (clean_line "alice") = .ok none ∧
    parseLinesLoop fsEmpty ["r"] 5 [(0, "alice")] ["r", "OWNERS"]
        (some "*.rs")
        ({ all_files := { inherit := none, owners := ∅ },
           pattern_overrides := [] } : OwnersFileConfig) [] =
      .ok ({ all_files := { inherit := none, owners := ∅ },
             pattern_overrides :=
               [("*.rs", { inherit := none, owners := {"alice"} })] }, []) ∧
    "*.rs" ∈ (({ all_files := { inherit := none, owners := ∅ },
                 pattern_overrides :=
                   [("*.rs", { inherit := none, owners := {"alice"} })] } :
        OwnersFileConfig), ([] : SeenMap)).1.pattern_overrides.map Prod.fst :=
  ⟨by decide, by decide, by decide,
    pattern_section_entry_on_next_line fsEmpty ["r"] 5 0 "alice" []
      ["r", "OWNERS"] "*.rs"
      { all_files := { inherit := none, owners := ∅ },
        pattern_overrides := [] } []
      ({ all_files := { inherit := none, owners := ∅ },
         pattern_overrides :=
           [("*.rs", { inherit := none, owners := {"alice"} })] }, [])
      (by decide) (by decide) (by decide)⟩

/-! ## C4: includes inside included files -/

/-- Counterexample to C4 as stated: the top-level file `/r/a/OWNERS`
includes `/r/b/OWNERS`, which itself contains an include line (reaching
`/r/c/OWNERS`); the parse does not fail — it succeeds and merges the
owners of all three files. -/
theorem nested_include_is_processed :
    fsNestedInclude.read ["r", "b", "OWNERS"] =
      some "include /c/OWNERS\nbob" ∧
    maybe_get_include "include /c/OWNERS" = .ok (some "/c/OWNERS") ∧
    from_text fsNestedInclude 10 "include /b/OWNERS" ["r", "a", "OWNERS"]
        ["r"] =
      .ok { all_files := { inherit := none, owners := {"bob", "carol"} },
            pattern_overrides := [] } := by
  refine ⟨by decide, by decide, by decide⟩

/-- C4 as amended: an include directive is rejected exactly when the
current target is a pattern-override section (in whichever file it
appears); at blanket scope of a file reached via include, further
include lines are legal and are expanded recursively into the same
accumulator (see `nested_include_is_processed`). -/
theorem include_rejected_only_in_pattern_sections :
    (∀ (fs : FSModel) (repo_base : FsPath) (fuel i : Nat) (raw : String)
       (rest : List (Nat × String)) (path : FsPath) (pat : String)
       (cfg : OwnersFileConfig) (seen : SeenMap) (inc : String),
       maybe_get_include (clean_line raw) = .ok (some inc) →
       parseLinesLoop fs repo_base (fuel + 1) ((i, raw) :: rest) path
         (some pat) cfg seen = .error .includeInPatternSection) ∧
    from_text fsNestedInclude 10 "include /b/OWNERS" ["r", "a", "OWNERS"]
        ["r"] =
      .ok { all_files := { inherit := none, owners := {"bob", "carol"} },
            pattern_overrides := [] } := by
  constructor
  · intro fs repo_base fuel i raw rest path pat cfg seen inc hinc
    have hline : clean_line raw ≠ "" := by
      intro he
      rw [he] at hinc
      have hnone : maybe_get_include "" = .ok none := by decide
      cases hnone.symm.trans hinc
    simp only [parseLinesLoop]
    rw [if_neg hline, hinc]
    simp
  · decide

/-- Witness for the amended C4: an include line while the `[p]` section
is active is rejected with the dedicated error. -/
theorem include_rejected_only_in_pattern_sections_witness :
    maybe_get_include (clean_line "include /x") = .ok (some "/x") ∧
    parseLinesLoop fsEmpty ["r"] 1 [(0, "include /x")] ["r", "OWNERS"]
        (some "p")
        ({ all_files := { inherit := none, owners := ∅ },
           pattern_overrides := [] } : OwnersFileConfig) [] =
      .error .includeInPatternSection :=
  ⟨by decide,
    include_rejected_only_in_pattern_sections.1 fsEmpty ["r"] 0 0
      "include /x" [] ["r", "OWNERS"] "p"
      { all_files := { inherit := none, owners := ∅ },
        pattern_overrides := [] } [] "/x" (by decide)⟩

/-! ## C5: include cycles and the reported chain -/

theorem chain_seen_length (parent : Option FsPath) :
    ∀ ps : List FsPath, (chain_seen parent ps).length = ps.length
  | [] => rfl
  | p :: rest => by
    rw [chain_seen, List.length_cons, List.length_cons,
      chain_seen_length (some p) rest]

theorem chain_seen_lookup_head (parent : Option FsPath) (p : FsPath)
    (post : List FsPath) :
    seenLookup (chain_seen parent (p :: post)) p = some parent := by
  simp [chain_seen, seenLookup, List.find?_cons]

theorem chain_seen_lookup_mid :
    ∀ (pre : List FsPath) (parent : Option FsPath) (y p : FsPath)
      (post : List FsPath), p ∉ pre → p ≠ y →
      seenLookup (chain_seen parent (pre ++ y :: p :: post)) p =
        some (some y)
  | [], parent, y, p, post, _, hpy => by
    simp [chain_seen, seenLookup, List.find?_cons, Ne.symm hpy]
  | x :: pre, parent, y, p, post, hpre, hpy => by
    have hpx : p ≠ x := fun h => hpre (h ▸ List.mem_cons_self x pre)
    rw [List.cons_append, chain_seen]
    rw [show seenLookup ((x, parent) :: chain_seen (some x)
        (pre ++ y :: p :: post)) p =
      seenLookup (chain_seen (some x) (pre ++ y :: p :: post)) p from by
        simp [seenLookup, List.find?_cons, Ne.symm hpx]]
    exact chain_seen_lookup_mid pre (some x) y p post
      (fun h => hpre (List.mem_cons_of_mem x h)) hpy

theorem walkParents_chain_seen :
    ∀ (pre : List FsPath) (p : FsPath) (post : List FsPath) (fuel : Nat),
      pre.length ≤ fuel → (pre ++ p :: post).Nodup →
      walkParents (chain_seen none (pre ++ p :: post)) fuel p =
        pre.reverse := by
  intro pre
  induction pre using List.reverseRecOn with
  | nil =>
    intro p post fuel _ _
    cases fuel with
    | zero => rfl
    | succ fuel =>
      rw [List.nil_append, walkParents, chain_seen_lookup_head]
      rfl
  | append_singleton pre y ih =>
    intro p post fuel hfuel hnd
    rw [List.append_assoc, List.singleton_append] at hnd ⊢
    have hlen : pre.length + 1 ≤ fuel := by
      rw [List.length_append, List.length_singleton] at hfuel
      omega
    obtain ⟨fuel, rfl⟩ : ∃ n, fuel = n + 1 := ⟨fuel - 1, by omega⟩
    obtain ⟨hnd1, hnd2, hdisj⟩ := List.nodup_append.mp hnd
    have hppre : p ∉ pre :=
      fun hp => hdisj hp (List.mem_cons_of_mem y (List.mem_cons_self p post))
    have hpy : p ≠ y :=
      fun heq => (List.nodup_cons.mp hnd2).1
        (heq ▸ List.mem_cons_self p post)
    rw [walkParents, chain_seen_lookup_mid pre none y p post hppre hpy]
    show y :: walkParents (chain_seen none (pre ++ y :: p :: post)) fuel y =
      (pre ++ [y]).reverse
    rw [ih y (p :: post) fuel (by omega) hnd]
    simp [List.reverse_append]

/-- On a parent-linked chain map, the chain reported for a revisited file
is its include ancestry in root-to-leaf order, ending at that file. -/
theorem includeChain_chain_seen (pre : List FsPath) (p : FsPath)
    (post : List FsPath) (hnd : (pre ++ p :: post).Nodup) :
    includeChain p (chain_seen none (pre ++ p :: post)) = pre ++ [p] := by
  unfold includeChain
  rw [chain_seen_length,
    walkParents_chain_seen pre p post _
      (by rw [List.length_append]; omega) hnd]
  simp

/-- An include line whose resolved target is already on the active chain
makes the parse fail with the cycle error carrying `includeChain` of the
target. -/
theorem parseLinesLoop_cycle_error (fs : FSModel) (repo_base : FsPath)
    (fuel i : Nat) (raw : String) (rest : List (Nat × String))
    (path : FsPath) (cfg : OwnersFileConfig) (seen : SeenMap) (inc : String)
    (ipath : FsPath) (itext : String)
    (hinc : maybe_get_include (clean_line raw) = .ok (some inc))
    (hres : resolve_include_path fs repo_base path inc = .ok ipath)
    (hread : fs.read ipath = some itext)
    (hseen : (seenLookup seen ipath).isSome = true) :
    parseLinesLoop fs repo_base (fuel + 1) ((i, raw) :: rest) path none cfg
      seen = .error (.cycleDetected (includeChain ipath seen)) := by
  have hline : clean_line raw ≠ "" := by
    intro he
    rw [he] at hinc
    have hnone : maybe_get_include "" = .ok none := by decide
    cases hnone.symm.trans hinc
  simp [parseLinesLoop, hline, hinc, hres, hread,
    check_no_circular_include, hseen]

/-- Counterexample to C5 as stated: `/r/a/OWNERS` includes `/r/b/OWNERS`
which includes `/r/a/OWNERS` back.  The parse fails, but the reported
chain is `[/r/a/OWNERS]` alone: `/r/b/OWNERS`, although on the active
include chain when the cycle is detected, is not listed — the error does
not list the full chain. -/
theorem cycle_error_chain_is_partial :
    from_text fsCycleInclude 10 "include /b/OWNERS" ["r", "a", "OWNERS"]
        ["r"] =
      .error (.cycleDetected [["r", "a", "OWNERS"]]) ∧
    ["r", "b", "OWNERS"] ∉ [["r", "a", "OWNERS"]] := by
  refine ⟨by decide, by decide⟩

/-- C5 as amended: (1) an include resolving to a file already on the
active chain fails deterministically with the cycle error, whose chain is
`includeChain` of the revisited file; (2) on a parent-linked chain map
that chain is the revisited file's include ancestry in root-to-leaf
order, ending at the revisited file (files entered after it are not
listed); (3) a file whose include has completed may be included again
from an unrelated branch: the diamond `a → {b, c}`, `b → d`, `c → d`
parses successfully. -/
theorem include_cycle_detection :
    (∀ (fs : FSModel) (repo_base : FsPath) (fuel i : Nat) (raw : String)
       (rest : List (Nat × String)) (path : FsPath)
       (cfg : OwnersFileConfig) (seen : SeenMap) (inc : String)
       (ipath : FsPath) (itext : String),
       maybe_get_include (clean_line raw) = .ok (some inc) →
       resolve_include_path fs repo_base path inc = .ok ipath →
       fs.read ipath = some itext →
       (seenLookup seen ipath).isSome = true →
       parseLinesLoop fs repo_base (fuel + 1) ((i, raw) :: rest) path none
         cfg seen = .error (.cycleDetected (includeChain ipath seen))) ∧
    (∀ (pre : List FsPath) (p : FsPath) (post : List FsPath),
       (pre ++ p :: post).Nodup →
       includeChain p (chain_seen none (pre ++ p :: post)) = pre ++ [p]) ∧
    from_text fsDiamondInclude 10 "include /b/OWNERS\ninclude /c/OWNERS"
        ["r", "a", "OWNERS"] ["r"] =
      .ok { all_files := { inherit := none, owners := {"dave"} },
            pattern_overrides := [] } := by
  refine ⟨?_, includeChain_chain_seen, by decide⟩
  intro fs repo_base fuel i raw rest path cfg seen inc ipath itext h1 h2 h3 h4
  exact parseLinesLoop_cycle_error fs repo_base fuel i raw rest path cfg
    seen inc ipath itext h1 h2 h3 h4

/-- Witness for the amended C5: inside `/r/b/OWNERS` (included from
`/r/a/OWNERS`), the line `include /a/OWNERS` resolves back to the active
top-level file and fails with the cycle error, whose chain is the
ancestry of `/r/a/OWNERS` — just that file. -/
theorem include_cycle_detection_witness :
    maybe_get_include (clean_line "include /a/OWNERS") =
      .ok (some "/a/OWNERS") ∧
    resolve_include_path fsCycleInclude ["r"] ["r", "b", "OWNERS"]
        "/a/OWNERS" = .ok ["r", "a", "OWNERS"] ∧
    fsCycleInclude.read ["r", "a", "OWNERS"] = some "include /b/OWNERS" ∧
    (seenLookup
        [(["r", "a", "OWNERS"], none),
         (["r", "b", "OWNERS"], some ["r", "a", "OWNERS"])]
        ["r", "a", "OWNERS"]).isSome = true ∧
    parseLinesLoop fsCycleInclude ["r"] 3 [(0, "include /a/OWNERS")]
        ["r", "b", "OWNERS"] none
        ({ all_files := { inherit := none, owners := ∅ },
           pattern_overrides := [] } : OwnersFileConfig)
        [(["r", "a", "OWNERS"], none),
         (["r", "b", "OWNERS"], some ["r", "a", "OWNERS"])] =
      .error (.cycleDetected (includeChain ["r", "a", "OWNERS"]
        [(["r", "a", "OWNERS"], none),
         (["r", "b", "OWNERS"], some ["r", "a", "OWNERS"])])) :=
  ⟨by decide, by decide, by decide, by decide,
    include_cycle_detection.1 fsCycleInclude ["r"] 2 0 "include /a/OWNERS"
      [] ["r", "b", "OWNERS"]
      { all_files := { inherit := none, owners := ∅ },
        pattern_overrides := [] }
      [(["r", "a", "OWNERS"], none),
       (["r", "b", "OWNERS"], some ["r", "a", "OWNERS"])]
      "/a/OWNERS" ["r", "a", "OWNERS"] "include /b/OWNERS"
      (by decide) (by decide) (by decide) (by decide)⟩

/-! ## C8: include path resolution -/

/-- C8: Include path resolution.  A resolution succeeds exactly when the
current file has a containing directory, the joined path — the repository
base extended with the token's components when the token begins with a
path separator (components drop the leading separator), the current
file's directory extended with them otherwise — canonicalizes, and the
canonical result lies inside the repository base.  Canonicalization
failure and escaping the base each produce the corresponding error.  The
concrete run (last conjunct) shows a nested file's relative include being
resolved against the *included* file's directory (through `..`), not the
top-level file's. -/
theorem include_path_resolution :
    (∀ (fs : FSModel) (repo_base current : FsPath) (f : String)
       (c : FsPath),
       resolve_include_path fs repo_base current f = .ok c ↔
       (current ≠ [] ∧
        fs.canonicalize
          (if strStartsWith f "/" then repo_base ++ pathComponents f
           else current.dropLast ++ pathComponents f) = some c ∧
        repo_base.isPrefixOf c = true)) ∧
    (∀ (fs : FSModel) (repo_base current : FsPath) (f : String),
       current ≠ [] →
       fs.canonicalize
         (if strStartsWith f "/" then repo_base ++ pathComponents f
          else current.dropLast ++ pathComponents f) = none →
       resolve_include_path fs repo_base current f =
         .error (.canonicalizeFailed
           (if strStartsWith f "/" then repo_base ++ pathComponents f
            else current.dropLast ++ pathComponents f))) ∧
    (∀ (fs : FSModel) (repo_base current : FsPath) (f : String)
       (c : FsPath),
       current ≠ [] →
       fs.canonicalize
         (if strStartsWith f "/" then repo_base ++ pathComponents f
          else current.dropLast ++ pathComponents f) = some c →
       repo_base.isPrefixOf c = false →
       resolve_include_path fs repo_base current f =
         .error (.outsideRepositoryBase c)) ∧
    from_text fsRelativeInclude 10 "include /b/sub/OWNERS"
        ["r", "a", "OWNERS"] ["r"] =
      .ok { all_files := { inherit := none, owners := {"xavier"} },
            pattern_overrides := [] } := by
  refine ⟨?_, ?_, ?_, by decide⟩
  · intro fs repo_base current f c
    cases current with
    | nil => simp [resolve_include_path]
    | cons x rest =>
      unfold resolve_include_path
      cases hc : fs.canonicalize
          (if strStartsWith f "/" then repo_base ++ pathComponents f
           else (x :: rest).dropLast ++ pathComponents f) with
      | none => simp [hc]
      | some c2 =>
        by_cases hp : repo_base.isPrefixOf c2
        · simp only [hc]
          simp [hp]
          rintro rfl
          exact List.isPrefixOf_iff_prefix.mp hp
        · simp [hc, hp]
          rintro rfl
          intro hpre
          exact hp (List.isPrefixOf_iff_prefix.mpr hpre)
  · intro fs repo_base current f hne hc
    cases current with
    | nil => exact absurd rfl hne
    | cons x rest =>
      unfold resolve_include_path
      simp [hc]
  · intro fs repo_base current f c hne hc hp
    cases current with
    | nil => exact absurd rfl hne
    | cons x rest =>
      unfold resolve_include_path
      simp [hc, hp]

/-- Witness for C8: the absolute token `/b/sub/OWNERS` resolves against
the repository base `/r`, with the leading separator stripped. -/
theorem include_path_resolution_witness :
    (["r", "a", "OWNERS"] : FsPath) ≠ [] ∧
    fsRelativeInclude.canonicalize
        (if strStartsWith "/b/sub/OWNERS" "/" then
          ["r"] ++ pathComponents "/b/sub/OWNERS"
         else (["r", "a", "OWNERS"] : FsPath).dropLast ++
           pathComponents "/b/sub/OWNERS") =
      some ["r", "b", "sub", "OWNERS"] ∧
    (["r"] : FsPath).isPrefixOf ["r", "b", "sub", "OWNERS"] = true ∧
    resolve_include_path fsRelativeInclude ["r"] ["r", "a", "OWNERS"]
        "/b/sub/OWNERS" = .ok ["r", "b", "sub", "OWNERS"] :=
  ⟨by decide, by decide, by decide,
    (include_path_resolution.1 fsRelativeInclude ["r"] ["r", "a", "OWNERS"]
        "/b/sub/OWNERS" ["r", "b", "sub", "OWNERS"]).mpr
      ⟨by decide, by decide, by decide⟩⟩

/-! ## C7: the admission predicate and branch skipping -/

theorem maybe_load_owners_file_shape (fs : FSModel) (allow : FsPath → Bool)
    (pfuel : Nat) (n n' : TreeNode) (b : Bool)
    (h : maybe_load_owners_file fs allow pfuel n = .ok (n', b)) :
    n'.path = n.path ∧ n'.repo_base = n.repo_base ∧
      n'.children = n.children := by
  unfold maybe_load_owners_file at h
  simp only at h
  cases hread : fs.read (n.path ++ ["OWNERS"]) with
  | none =>
    rw [hread] at h
    cases h
    exact ⟨rfl, rfl, rfl⟩
  | some text =>
    rw [hread] at h
    simp only at h
    by_cases hallow : allow (n.path ++ ["OWNERS"]) = false
    · rw [if_pos hallow] at h
      cases h
      exact ⟨rfl, rfl, rfl⟩
    · rw [if_neg hallow] at h
      cases hfile : from_file fs pfuel (n.path ++ ["OWNERS"]) n.repo_base with
      | error e => rw [hfile] at h; cases h
      | ok cfg =>
        rw [hfile] at h
        cases h
        exact ⟨rfl, rfl, rfl⟩

theorem nodePathsList_append : ∀ (a b : List TreeNode),
    nodePathsList (a ++ b) = nodePathsList a ++ nodePathsList b
  | [], b => rfl
  | t :: ts, b => by
    rw [List.cons_append, nodePathsList, nodePathsList,
      nodePathsList_append ts b, List.append_assoc]

theorem nodePaths_eq (t : TreeNode) :
    nodePaths t = t.path :: nodePathsList t.children := by
  cases t
  rfl

/-- Every node path added by `load_children_from_files` below `directory`
extends `directory`; paths already in the accumulating node are kept.
(The hypothesis states `read_dir` semantics: a listed subdirectory is an
immediate child of the directory listed.) -/
theorem load_scope (fs : FSModel) (allow : FsPath → Bool) (pfuel : Nat)
    (wf : ∀ p q, q ∈ fs.subdirs p → ∃ c, q = p ++ [c]) :
    ∀ fuel : Nat,
      (∀ (self : TreeNode) (dir : FsPath) (r : TreeNode),
        load_children_from_files fs allow pfuel fuel self dir = .ok r →
        ∀ q ∈ nodePaths r, q ∈ nodePaths self ∨ dir <+: q) ∧
      (∀ (node : TreeNode) (ds : List FsPath) (r : TreeNode),
        loadChildrenList fs allow pfuel fuel node ds = .ok r →
        ∀ q ∈ nodePaths r, q ∈ nodePaths node ∨ ∃ d ∈ ds, d <+: q) := by
  intro fuel
  induction fuel with
  | zero =>
    constructor
    · intro self dir r h q hq
      unfold load_children_from_files at h
      by_cases hgit : dir.getLast? = some ".git"
      · rw [if_pos hgit] at h
        cases h
        exact Or.inl hq
      · rw [if_neg hgit] at h
        cases h
    · intro node ds r h q hq
      cases h
  | succ fuel ih =>
    have key : ∀ (node0 : TreeNode) (dir : FsPath) (r0 : TreeNode)
        (has : Bool),
        maybe_load_owners_file fs allow pfuel
          { path := dir, repo_base := node0.repo_base,
            owners_config := {}, children := [] } = .ok (r0, has) →
        ∀ q ∈ nodePaths r0, q = dir := by
      intro node0 dir r0 has hload q hq
      obtain ⟨hp, _, hc⟩ := maybe_load_owners_file_shape _ _ _ _ _ _ hload
      rw [nodePaths_eq, hp, hc] at hq
      simpa [nodePathsList] using hq
    constructor
    · intro self dir r h q hq
      unfold load_children_from_files at h
      by_cases hgit : dir.getLast? = some ".git"
      · rw [if_pos hgit] at h
        cases h
        exact Or.inl hq
      · rw [if_neg hgit] at h
        simp only at h
        cases hload : maybe_load_owners_file fs allow pfuel
            { path := dir, repo_base := self.repo_base,
              owners_config := {}, children := [] } with
        | error e => rw [hload] at h; cases h
        | ok pair =>
          rw [hload] at h
          obtain ⟨cur1, has⟩ := pair
          cases has with
          | true =>
            simp only at h
            cases hlist : loadChildrenList fs allow pfuel fuel cur1
                (fs.subdirs dir) with
            | error e => rw [hlist] at h; cases h
            | ok cur2 =>
              rw [hlist] at h
              cases h
              rw [nodePaths_eq] at hq
              simp only [List.mem_cons] at hq
              rcases hq with hq | hq
              · refine Or.inl ?_
                rw [nodePaths_eq]
                exact hq ▸ List.mem_cons_self _ _
              · rw [nodePathsList_append] at hq
                rcases List.mem_append.mp hq with hq | hq
                · refine Or.inl ?_
                  rw [nodePaths_eq]
                  exact List.mem_cons_of_mem _ hq
                · have hq2 : q ∈ nodePaths cur2 := by
                    simpa [nodePathsList] using hq
                  rcases ih.2 cur1 (fs.subdirs dir) cur2 hlist q hq2 with
                    hc1 | ⟨d, hd, hdq⟩
                  · exact Or.inr ((key self dir cur1 true hload q hc1) ▸
                      List.prefix_refl dir)
                  · obtain ⟨c, rfl⟩ := wf dir d hd
                    exact Or.inr (List.IsPrefix.trans
                      (List.prefix_append dir [c]) hdq)
          | false =>
            simp only at h
            rcases ih.2 self (fs.subdirs dir) r h q hq with hs | ⟨d, hd, hdq⟩
            · exact Or.inl hs
            · obtain ⟨c, rfl⟩ := wf dir d hd
              exact Or.inr (List.IsPrefix.trans
                (List.prefix_append dir [c]) hdq)
    · intro node ds r h q hq
      unfold loadChildrenList at h
      cases ds with
      | nil =>
        cases h
        exact Or.inl hq
      | cons d rest =>
        simp only at h
        cases hone : load_children_from_files fs allow pfuel fuel node d with
        | error e => rw [hone] at h; cases h
        | ok node1 =>
          rw [hone] at h
          rcases ih.2 node1 rest r h q hq with hn1 | ⟨d', hd', hdq⟩
          · rcases ih.1 node d node1 hone q hn1 with hn | hdq
            · exact Or.inl hn
            · exact Or.inr ⟨d, List.mem_cons_self _ _, hdq⟩
          · exact Or.inr ⟨d', List.mem_cons_of_mem _ hd', hdq⟩

/-- The subdirectory listing of `fsDeepTree` is `read_dir`-shaped: every
listed directory is an immediate child of the directory listed. -/
theorem fsDeepTree_wf :
    ∀ p q, q ∈ fsDeepTree.subdirs p → ∃ c, q = p ++ [c] := by
  intro p q hq
  by_cases h1 : p = ["r"]
  · subst h1
    simp [fsDeepTree] at hq
    exact ⟨"a", hq⟩
  · by_cases h2 : p = ["r", "a"]
    · subst h2
      simp [fsDeepTree] at hq
      exact ⟨"b", hq⟩
    · have hnil : fsDeepTree.subdirs p = [] := by
        simp [fsDeepTree, h1, h2]
      rw [hnil] at hq
      cases hq

/-- Scope of the root-level walk: new node paths extend some admitted
root-level directory. -/
theorem loadRootList_scope (fs : FSModel) (allow : FsPath → Bool)
    (pfuel fuel : Nat)
    (wf : ∀ p q, q ∈ fs.subdirs p → ∃ c, q = p ++ [c]) :
    ∀ (ds : List FsPath) (node r : TreeNode),
      loadRootList fs allow pfuel fuel node ds = .ok r →
      ∀ q ∈ nodePaths r,
        q ∈ nodePaths node ∨ ∃ d ∈ ds, allow d = true ∧ d <+: q
  | [], node, r => by
    intro h q hq
    cases h
    exact Or.inl hq
  | d :: rest, node, r => by
    intro h q hq
    unfold loadRootList at h
    by_cases hallow : allow d
    · rw [if_pos hallow] at h
      cases hone : load_children_from_files fs allow pfuel fuel node d with
      | error e => rw [hone] at h; cases h
      | ok node1 =>
        rw [hone] at h
        simp only at h
        rcases loadRootList_scope fs allow pfuel fuel wf rest node1 r h q hq
          with hn1 | ⟨d', hd', hall', hdq⟩
        · rcases (load_scope fs allow pfuel wf fuel).1 node d node1 hone q hn1
            with hn | hdq
          · exact Or.inl hn
          · exact Or.inr ⟨d, List.mem_cons_self _ _, hallow, hdq⟩
        · exact Or.inr ⟨d', List.mem_cons_of_mem _ hd', hall', hdq⟩
    · rw [if_neg hallow] at h
      rcases loadRootList_scope fs allow pfuel fuel wf rest node r h q hq
        with hn | ⟨d', hd', hall', hdq⟩
      · exact Or.inl hn
      · exact Or.inr ⟨d', List.mem_cons_of_mem _ hd', hall', hdq⟩

/-- Counterexample to C7 as stated: the predicate `rejectDeepDir` rejects
the depth-2 directory `/r/a/b`, yet the built tree contains a node for
`/r/a/b` with its `OWNERS` file parsed — the branch filter is only
applied to direct children of the root, so deeper rejected directories
are still visited. -/
theorem deep_rejected_directory_still_materializes :
    rejectDeepDir ["r", "a", "b"] = false ∧
    (load_from_files fsDeepTree rejectDeepDir 10 10 ["r"]).map nodeSummary =
      .ok [(["r"], { all_files := { inherit := none, owners := ∅ },
                     pattern_overrides := [] }),
           (["r", "a", "b"],
            { all_files := { inherit := none, owners := {"eve"} },
              pattern_overrides := [] })] :=
  ⟨by decide, by decide⟩

/-- C7 as amended: the admission predicate acts as a whole-branch filter
only for the direct children of the root.  For every `read_dir`-shaped
filesystem, root, and rejected direct child `d` of the root, the built
tree contains no node whose path lies in the branch rooted at `d`.
(Deeper rejected directories are still visited; see
`deep_rejected_directory_still_materializes`.) -/
theorem root_branch_rejection :
    ∀ (fs : FSModel) (allow : FsPath → Bool) (pfuel fuel : Nat)
      (root d : FsPath) (t : TreeNode) (q : FsPath),
      (∀ p q', q' ∈ fs.subdirs p → ∃ c, q' = p ++ [c]) →
      d ∈ fs.subdirs root → allow d = false →
      load_from_files fs allow pfuel fuel root = .ok t →
      q ∈ nodePaths t → ¬ d <+: q := by
  intro fs allow pfuel fuel root d t q wf hd hallow h hq hdq
  unfold load_from_files at h
  simp only at h
  cases hload : maybe_load_owners_file fs allow pfuel
      { path := root, repo_base := root, owners_config := {},
        children := [] } with
  | error e => rw [hload] at h; cases h
  | ok pair =>
    rw [hload] at h
    obtain ⟨root1, b⟩ := pair
    simp only at h
    obtain ⟨c, rfl⟩ := wf root d hd
    rcases loadRootList_scope fs allow pfuel fuel wf (fs.subdirs root)
        root1 t h q hq with hq1 | ⟨d', hd', hall', hd'q⟩
    · obtain ⟨hp, _, hc⟩ := maybe_load_owners_file_shape _ _ _ _ _ _ hload
      rw [nodePaths_eq, hp, hc] at hq1
      simp only [nodePathsList, List.mem_singleton] at hq1
      subst hq1
      have hlen := hdq.length_le
      rw [List.length_append] at hlen
      simp at hlen
    · obtain ⟨c', rfl⟩ := wf root d' hd'
      rcases List.prefix_or_prefix_of_prefix hdq hd'q with hpp | hpp
      · have heq := hpp.eq_of_length (by simp)
        rw [heq, hall'] at hallow
        cases hallow
      · have heq := hpp.eq_of_length (by simp)
        rw [← heq, hall'] at hallow
        cases hallow

/-- Witness for the amended C7: with the direct root child `/r/a`
rejected, the tree over `fsDeepTree` is the bare root and no node path
lies under `/r/a`. -/
theorem root_branch_rejection_witness :
    (["r", "a"] : FsPath) ∈ fsDeepTree.subdirs ["r"] ∧
    rejectTopDir ["r", "a"] = false ∧
    load_from_files fsDeepTree rejectTopDir 10 10 ["r"] =
      .ok ⟨["r"], ["r"],
        { all_files := { inherit := none, owners := ∅ },
          pattern_overrides := [] }, []⟩ ∧
    (["r"] : FsPath) ∈ nodePaths
      ⟨["r"], ["r"],
        { all_files := { inherit := none, owners := ∅ },
          pattern_overrides := [] }, []⟩ ∧
    ¬ (["r", "a"] : FsPath) <+: ["r"] :=
  ⟨by decide, by decide, rfl, by simp [nodePaths, nodePathsList],
    root_branch_rejection fsDeepTree rejectTopDir 10 10 ["r"] ["r", "a"]
      ⟨["r"], ["r"],
        { all_files := { inherit := none, owners := ∅ },
          pattern_overrides := [] }, []⟩
      ["r"] fsDeepTree_wf (by decide) (by decide) rfl
      (by simp [nodePaths, nodePathsList])⟩

/-! ## C10: the hardcoded `.git` exclusion -/

/-- Counterexample to C10 as stated: when the *root* directory itself is
named `.git`, the builder still materializes it — its `OWNERS` file is
parsed, a node is created for it, and a declaration beneath it is parsed
too, even though the admission predicate plays no role.  The hardcoded
skip only guards directories reached through recursion, not the root. -/
theorem git_named_root_is_materialized :
    ([".git"] : FsPath).getLast? = some ".git" ∧
    (load_from_files fsGitRoot allowAll 10 10 [".git"]).map nodeSummary =
      .ok [([".git"],
            { all_files := { inherit := none, owners := {"root.owner"} },
              pattern_overrides := [] }),
           ([".git", "sub"],
            { all_files := { inherit := none, owners := {"sub.owner"} },
              pattern_overrides := [] })] :=
  ⟨by decide, by decide⟩

/-- C10 as amended: every non-root candidate directory — i.e. every
directory handed to `load_children_from_files`, which processes all
directories except the root itself — whose final path component is
`.git` is skipped unconditionally, before the admission predicate or
anything else is consulted: the accumulating node is returned unchanged,
so nothing beneath the directory is visited, no declaration file in it is
parsed, and no node for it is created, for every filesystem and every
predicate. -/
theorem git_directory_always_skipped :
    ∀ (fs : FSModel) (allow : FsPath → Bool) (pfuel fuel : Nat)
      (self : TreeNode) (d : FsPath),
      d.getLast? = some ".git" →
      load_children_from_files fs allow pfuel fuel self d = .ok self := by
  intro fs allow pfuel fuel self d h
  unfold load_children_from_files
  rw [if_pos h]

/-- Witness for the amended C10: a directory `/x/.git` is skipped — the
accumulating node comes back unchanged (even with zero walk fuel, since
the check precedes everything). -/
theorem git_directory_always_skipped_witness :
    (["x", ".git"] : FsPath).getLast? = some ".git" ∧
    load_children_from_files fsGitRoot allowAll 3 0
        ⟨["x"], ["x"],
          { all_files := { inherit := none, owners := ∅ },
            pattern_overrides := [] }, []⟩ ["x", ".git"] =
      .ok ⟨["x"], ["x"],
        { all_files := { inherit := none, owners := ∅ },
          pattern_overrides := [] }, []⟩ :=
  ⟨by decide,
    git_directory_always_skipped fsGitRoot allowAll 3 0
      ⟨["x"], ["x"],
        { all_files := { inherit := none, owners := ∅ },
          pattern_overrides := [] }, []⟩ ["x", ".git"] (by decide)⟩

end GithubDistributedOwners
